import Mathlib

set_option maxRecDepth 100000

/-!
Verification development for a streaming tar codec (parser, extractor,
archive writer).  JavaScript strings and buffers are embedded as `List Char`
and `List Nat` (byte values); stateful stream objects become explicit state
records with pure transition functions; a thrown JS exception becomes an
explicit terminal state.  Every definition mirrors the corresponding source
function; library collaborators that are not part of the verified source
(Node's `path.posix`, the header/pax codecs) are modelled from their
documented behaviour, as marked on each definition.
-/

namespace Tar

/-! ## Node `path.posix` model

The extractor calls `path.join` and (through it) `path.normalize` from
Node's standard library.  These are modelled here at the character-list
level: `splitSlash`/`joinSlash` are `String.prototype.split('/')` and
`Array.prototype.join('/')`, `normStep`/`normComps` are the component
processing performed by Node's `normalizeString` (skip empty and `"."`
segments; `".."` pops the previous segment unless it is itself `".."`,
and is kept only for relative paths), and `pnormalize`/`pjoin2` follow
`path.posix.normalize` / `path.posix.join` including the absolute-path
and trailing-slash handling. -/

abbrev Str := List Char

def splitSlash : Str → List Str
  | [] => [[]]
  | c :: rest =>
    if c = '/' then [] :: splitSlash rest
    else
      match splitSlash rest with
      | [] => [[c]]
      | p :: ps => (c :: p) :: ps

def joinSlash : List Str → Str
  | [] => []
  | [p] => p
  | p :: q :: ps => p ++ '/' :: joinSlash (q :: ps)

def normStep (allowUp : Bool) (res : List Str) (c : Str) : List Str :=
  if c = [] ∨ c = ['.'] then res
  else if c = ['.', '.'] then
    if res ≠ [] ∧ res.getLast? ≠ some ['.', '.'] then res.dropLast
    else if allowUp then res ++ [c] else res
  else res ++ [c]

def normComps (allowUp : Bool) (cs : List Str) : List Str :=
  cs.foldl (normStep allowUp) []

def pnormalize (p : Str) : Str :=
  if p = [] then ['.']
  else
    let isAbs := p.head? = some '/'
    let trail := p.getLast? = some '/'
    let r := joinSlash (normComps (!isAbs) (splitSlash p))
    if r = [] then
      if isAbs then ['/'] else if trail then ['.', '/'] else ['.']
    else
      let r := if trail then r ++ ['/'] else r
      if isAbs then '/' :: r else r

def pjoin2 (a b : Str) : Str :=
  if a = [] then (if b = [] then ['.'] else pnormalize b)
  else if b = [] then pnormalize a
  else pnormalize (a ++ '/' :: b)

/-! ## Extractor path fixing (src/lib/unpack.js, `[FIXPATH]`)

`fixPath` is the extractor's path-fix step: when `strip` is configured,
split the entry path on `/`, drop the first `strip` components and rejoin;
then `path.join(this.path, path.join('/', p))`. -/

def fixPath (root : Str) (strip : Nat) (p : Str) : Str :=
  let q := if strip ≠ 0 then joinSlash ((splitSlash p).drop strip) else p
  pjoin2 root (pjoin2 ['/'] q)

/-- A path component is clean when it is not empty, `"."` or `".."`. -/
def CleanComp (c : Str) : Prop := c ≠ [] ∧ c ≠ ['.'] ∧ c ≠ ['.', '.']

instance (c : Str) : Decidable (CleanComp c) := by unfold CleanComp; infer_instance

/-- The absolute path whose components are `C`. -/
def rootOf (C : List Str) : Str := '/' :: joinSlash C

/-- `t` is `root` itself or lies strictly below it. -/
def Descends (root t : Str) : Prop := t = root ∨ ∃ rest, t = root ++ '/' :: rest

/-! ## Extractor dispatch (src/lib/unpack.js, `[ONENTRY]` and the
per-type handlers)

Only the target-path computation of each handler is modelled; the
filesystem effects (stream piping, mkdir, utimes) are external effects
carried by the action value. -/

inductive EType
  | file | oldFile | contiguousFile | link | symbolicLink
  | directory | gnuDumpDir | characterDevice | blockDevice | fifo | other
  deriving DecidableEq

structure UEntry where
  type : EType
  path : Str
  linkpath : Str
  deriving DecidableEq

inductive UAction
  | createFile (target : Str)
  | makeDir (target : Str)
  | hardLink (target linkTarget : Str)
  | symLink (target linkTarget : Str)
  | unsupportedSig
  | unknownSig
  deriving DecidableEq

def onEntry (root : Str) (strip : Nat) (e : UEntry) : UAction :=
  match e.type with
  | .file => .createFile (fixPath root strip e.path)
  | .oldFile => .createFile (fixPath root strip e.path)
  | .contiguousFile => .createFile (fixPath root strip e.path)
  | .link => .hardLink (fixPath root strip e.path) (fixPath root strip e.linkpath)
  | .symbolicLink => .symLink (fixPath root strip e.path) e.linkpath
  | .directory => .makeDir (fixPath root strip e.path)
  | .gnuDumpDir => .makeDir (fixPath root strip e.path)
  | .characterDevice => .unsupportedSig
  | .blockDevice => .unsupportedSig
  | .fifo => .unsupportedSig
  | .other => .unknownSig

/-! ## Header decoding

Modelled from the spec: `header.js` is not under src/ (only its callers
and tests are).  Per the spec, an octal field is parsed as leading ASCII
octal digits stopping at the first NUL, space or non-octal byte; when the
high bit of the first byte is set the remaining bytes are a big-endian
two's-complement binary integer (GNU base-256); `cksumValid` holds iff
the stored checksum equals the signed or the unsigned byte sum of the
block with the checksum field replaced by ASCII spaces.  Only the fields
the parser state machine consumes (checksum validity, size, type key)
are decoded. -/

abbrev Bytes := List Nat

def isOctalDigit (b : Nat) : Bool := 48 ≤ b && b ≤ 55

def parseOctal (bs : Bytes) : Nat :=
  (bs.takeWhile isOctalDigit).foldl (fun a d => 8 * a + (d - 48)) 0

def twosComp (bs : Bytes) : Int :=
  let u : Nat := bs.foldl (fun a b => 256 * a + b % 256) 0
  if 2 ^ (8 * bs.length - 1) ≤ u then (u : Int) - 2 ^ (8 * bs.length) else (u : Int)

def parseNumeric (bs : Bytes) : Int :=
  match bs with
  | [] => 0
  | b :: rest => if 128 ≤ b % 256 then twosComp rest else (parseOctal (b :: rest) : Int)

def slice (block : Bytes) (off len : Nat) : Bytes := (block.drop off).take len

def cksumInput (block : Bytes) : Bytes :=
  slice block 0 148 ++ List.replicate 8 32 ++ slice block 156 356

def unsignedSum (bs : Bytes) : Nat := (bs.map (fun b => b % 256)).sum

def signedSum (bs : Bytes) : Int :=
  (bs.map (fun b => if b % 256 < 128 then (b % 256 : Int) else (b % 256 : Int) - 256)).sum

structure Hdr where
  cksumValid : Bool
  typeKey : Nat
  size : Nat
  deriving DecidableEq

def decodeHeader (block : Bytes) : Hdr :=
  let stored := parseNumeric (slice block 148 8)
  let body := cksumInput block
  { cksumValid := decide (stored = (unsignedSum body : Int)) || decide (stored = signedSum body),
    typeKey := (block.getD 156 0) % 256,
    size := (parseNumeric (slice block 124 12)).toNat }

/-- Meta entry types: `x`/`X` (per-entry extended), `g` (global extended),
`K`/`L`/`N` (GNU long linkpath / long path / old long path); exactly the
cases of the parser's `consumeMeta` dispatch.  Modelled from the spec
(`read-entry.js` is not under src/). -/
def isMetaType (t : Nat) : Bool :=
  t = 120 || t = 88 || t = 103 || t = 75 || t = 76 || t = 78

/-- Recognized type keys (spec type-code table); an unknown key makes the
entry `ignore = true` (shown by the read-entry test for key `9`). -/
def isKnownType (t : Nat) : Bool :=
  t = 0 || (48 ≤ t && t ≤ 55) || t = 68 || t = 77 || isMetaType t

/-! ## Parser state machine (src/unnamed/part_002)

The parser object is split into `Core` (everything the block-consuming
loop touches) and `Parser` (the write-level wrapper adding the chunk
buffer and the gzip-detection state).  Entries are recorded in creation
order with their accumulated body bytes; pax/GNU overrides are an opaque
free datatype `Ov` recording exactly how each override value was built
(`pax.js` is not under src/, and the parser never inspects the parsed
override contents).  The `this[STATE] = ignore` statement in the
oversize-meta branch of `consumeHeader` references an identifier that is
nowhere defined, which in strict mode throws a `ReferenceError`; a thrown
exception is modelled as the absorbing `crashed` state (the feeder stops
at the first exception). -/

inductive Ov
  | null
  | paxParse (body : Bytes) (prior : Ov) (global : Bool)
  | setPath (path : Bytes) (prior : Ov)
  | setLinkpath (lp : Bytes) (prior : Ov)
  deriving DecidableEq

structure EntryInfo where
  typeKey : Nat
  size : Nat
  meta : Bool
  unknownType : Bool
  ex : Ov
  gex : Ov
  deriving DecidableEq

structure WEntry where
  info : EntryInfo
  remain : Nat
  blockRemain : Nat
  ign : Bool
  idx : Option Nat
  deriving DecidableEq

structure EntryRec where
  info : EntryInfo
  body : Bytes
  ended : Bool
  deriving DecidableEq

inductive Sig
  | invalidHeader
  | metaEntryTooLarge (info : EntryInfo)
  | ignoredEntry (info : EntryInfo)
  | metaText (text : Bytes)
  deriving DecidableEq

inductive CrashTag
  | refErrorIgnore
  | unknownMeta
  | nullEntry
  deriving DecidableEq

inductive PState
  | begin | body | meta | ignore
  | crashed (t : CrashTag)
  deriving DecidableEq

structure Core where
  state : PState
  wentry : Option WEntry
  metaAcc : Bytes
  ex : Ov
  gex : Ov
  entries : List EntryRec
  sigs : List Sig
  maxMeta : Nat
  deriving DecidableEq

def newEntryInfo (k : Core) (h : Hdr) : EntryInfo :=
  { typeKey := h.typeKey, size := h.size, meta := isMetaType h.typeKey,
    unknownType := !isKnownType h.typeKey, ex := k.ex, gex := k.gex }

/-- `Parser.consumeHeader`: decode the 512-byte block; on an invalid
checksum emit `invalidHeader` and change nothing else; otherwise build the
entry (applying the pending per-entry and global overrides), handle meta
entries (the oversize branch emits `metaEntryTooLarge`, marks the entry
ignored and then crashes on the undefined identifier `ignore`), clear the
per-entry overrides, apply the filter, and enter `ignore`/`body`/`begin`. -/
def consumeHeader (flt : EntryInfo → Bool) (k : Core) (block : Bytes) : Core :=
  let h := decodeHeader block
  if !h.cksumValid then { k with sigs := k.sigs ++ [.invalidHeader] }
  else
    let info := newEntryInfo k h
    let e : WEntry := { info := info, remain := h.size,
                        blockRemain := 512 * ((h.size + 511) / 512),
                        ign := info.unknownType, idx := none }
    if info.meta then
      if k.maxMeta < h.size then
        { k with wentry := some { e with ign := true },
                 sigs := k.sigs ++ [.metaEntryTooLarge info],
                 state := .crashed .refErrorIgnore }
      else
        { k with wentry := some e, metaAcc := [], state := .meta }
    else
      let k1 := { k with ex := .null }
      if e.ign || !flt info then
        { k1 with wentry := some { e with ign := true },
                  sigs := k1.sigs ++ [.ignoredEntry info],
                  state := if e.remain ≠ 0 then .ignore else .begin }
      else
        { k1 with wentry := some { e with idx := some k1.entries.length },
                  state := if e.remain ≠ 0 then .body else .begin,
                  entries := k1.entries ++ [{ info := info, body := [], ended := h.size == 0 }] }

/-- The three-way case split of `Parser.consumeBodyChunk`: a chunk either
does not finish `remain`, finishes `remain` but not `blockRemain`, or
finishes both (in which case the unconsumed suffix is returned and the
entry fields are left untouched, the source nulling the entry out). -/
structure BodyOut where
  dataOut : Bytes
  endCalled : Bool
  finished : Bool
  remainAfter : Nat
  blockRemainAfter : Nat
  leftover : Bytes
  deriving DecidableEq

def bodyStep (remain blockRemain : Nat) (c : Bytes) : BodyOut :=
  if c.length < remain then
    { dataOut := c, endCalled := false, finished := false,
      remainAfter := remain - c.length, blockRemainAfter := blockRemain - c.length,
      leftover := [] }
  else if c.length < blockRemain then
    { dataOut := c.take remain, endCalled := true, finished := false,
      remainAfter := 0, blockRemainAfter := blockRemain - c.length, leftover := [] }
  else
    { dataOut := c.take remain, endCalled := true, finished := true,
      remainAfter := remain, blockRemainAfter := blockRemain,
      leftover := c.drop blockRemain }

/-- Append forwarded data (and an end mark) to the entry record the active
write-entry points at. -/
def recWrite (rs : List EntryRec) (idx : Option Nat) (data : Bytes) (ende : Bool) :
    List EntryRec :=
  match idx with
  | none => rs
  | some i =>
    match rs[i]? with
    | none => rs
    | some r => rs.set i { r with body := r.body ++ data, ended := r.ended || ende }

/-- `Parser.consumeEntryBody`: `consumeBodyChunk` with the emit callback
writing into the active entry. -/
def consumeEntryBody (k : Core) (c : Bytes) : Core × Option Bytes :=
  match k.wentry with
  | none => ({ k with state := .crashed .nullEntry }, none)
  | some e =>
    let o := bodyStep e.remain e.blockRemain c
    let rs := recWrite k.entries e.idx o.dataOut o.endCalled
    if o.finished then
      ({ k with entries := rs, state := .begin, wentry := none }, some o.leftover)
    else
      ({ k with entries := rs,
                wentry := some { e with remain := o.remainAfter,
                                        blockRemain := o.blockRemainAfter } }, none)

/-- The dispatch at the end of `Parser.consumeMeta`, keyed by the meta
entry's type; the default case of the source throws. -/
def metaDispatch (k : Core) (tk : Nat) : Core :=
  if tk = 120 || tk = 88 then { k with ex := .paxParse k.metaAcc k.ex false }
  else if tk = 103 then { k with gex := .paxParse k.metaAcc k.gex true }
  else if tk = 76 || tk = 78 then { k with ex := .setPath k.metaAcc k.ex }
  else if tk = 75 then { k with ex := .setLinkpath k.metaAcc k.ex }
  else { k with state := .crashed .unknownMeta }

/-- `Parser.consumeMeta`: `consumeBodyChunk` with the emit callback
accumulating into the meta string; when the entry's block completes, emit
the accumulated text and dispatch on the meta type. -/
def consumeMeta (k : Core) (c : Bytes) : Core × Option Bytes :=
  match k.wentry with
  | none => ({ k with state := .crashed .nullEntry }, none)
  | some e =>
    let o := bodyStep e.remain e.blockRemain c
    if o.finished then
      let k1 := { k with metaAcc := k.metaAcc ++ o.dataOut, state := .begin,
                         wentry := none }
      let k2 := { k1 with sigs := k1.sigs ++ [.metaText k1.metaAcc] }
      (metaDispatch k2 e.info.typeKey, some o.leftover)
    else
      ({ k with metaAcc := k.metaAcc ++ o.dataOut,
                wentry := some { e with remain := o.remainAfter,
                                        blockRemain := o.blockRemainAfter } }, none)

/-- `Parser.consumeIgnoreBody`: drop body bytes; when the block completes,
return the suffix and go back to `begin` (the stale write-entry is kept,
as in the source). -/
def consumeIgnoreBody (k : Core) (c : Bytes) : Core × Option Bytes :=
  match k.wentry with
  | none => ({ k with state := .crashed .nullEntry }, none)
  | some e =>
    if e.blockRemain ≤ c.length then
      ({ k with state := .begin }, some (c.drop e.blockRemain))
    else
      ({ k with wentry := some { e with blockRemain := e.blockRemain - c.length } }, none)

def stateW (s : PState) : Nat :=
  if s = .body ∨ s = .meta ∨ s = .ignore then 1 else 0

/-- The block-consuming loop of `Parser[CONSUMECHUNK]`: while at least 512
bytes remain, dispatch on the state; the final short remainder is returned
to be buffered.  A crash discards the rest of the chunk.  The recursion is
fuelled so the definition stays kernel-computable; `loopGo_fuel` shows any
fuel above the loop measure gives the same result, and `loopP` supplies
enough. -/
def loopGo (flt : EntryInfo → Bool) : Nat → Core → Bytes → Core × Bytes
  | 0, k, c => (k, c)
  | fuel + 1, k, c =>
    if c.length < 512 then (k, c)
    else
      match k.state with
      | .crashed _ => (k, [])
      | .begin => loopGo flt fuel (consumeHeader flt k (c.take 512)) (c.drop 512)
      | .body =>
        match consumeEntryBody k c with
        | (k1, none) => (k1, [])
        | (k1, some r) => loopGo flt fuel k1 r
      | .meta =>
        match consumeMeta k c with
        | (k1, none) => (k1, [])
        | (k1, some r) => loopGo flt fuel k1 r
      | .ignore =>
        match consumeIgnoreBody k c with
        | (k1, none) => (k1, [])
        | (k1, some r) => loopGo flt fuel k1 r

def loopP (flt : EntryInfo → Bool) (k : Core) (c : Bytes) : Core × Bytes :=
  loopGo flt (2 * c.length + 2) k c

def isCrashed (k : Core) : Bool :=
  match k.state with
  | .crashed _ => true
  | _ => false

structure Parser where
  core : Core
  buffer : Bytes
  unzip : Option Bool
  ended : Bool
  gzIn : List Bytes
  gzEnded : Bool
  endSig : Bool
  deriving DecidableEq

/-- `Parser[CONSUMECHUNK]`: prepend the buffered remainder, run the loop,
store the new sub-512 remainder; with no chunk (or everything consumed)
and the stream ended, emit `end`.  A crash skips the buffer store. -/
def consumeChunkTop (flt : EntryInfo → Bool) (p : Parser) (oc : Option Bytes) : Parser :=
  match oc with
  | none => if p.ended then { p with endSig := true } else p
  | some c =>
    let res := loopP flt p.core (p.buffer ++ c)
    if isCrashed res.1 then { p with core := res.1, buffer := [] }
    else if res.2 ≠ [] then { p with core := res.1, buffer := res.2 }
    else if p.ended then { p with core := res.1, buffer := [], endSig := true }
    else { p with core := res.1, buffer := [] }

/-- `Parser.write`: on the first write carrying data, buffer until two
bytes are seen and compare them with the gzip magic; route through the
inflator (recorded in `gzIn`) or consume directly; the decision is final.
A parser that has crashed receives no further input. -/
def write (flt : EntryInfo → Bool) (p : Parser) (oc : Option Bytes) : Parser :=
  if isCrashed p.core then p
  else
    match p.unzip, oc with
    | none, some c0 =>
      let cb := p.buffer ++ c0
      if cb.length < 2 then { p with buffer := cb }
      else if cb.take 2 = [31, 139] then
        { p with buffer := [], unzip := some true, gzIn := p.gzIn ++ [cb],
                 gzEnded := p.ended }
      else consumeChunkTop flt { p with buffer := [], unzip := some false } (some cb)
    | none, none => consumeChunkTop flt p none
    | some true, _ =>
      { p with gzIn := p.gzIn ++ (match oc with | some c => [c] | none => []),
               gzEnded := p.gzEnded || p.ended }
    | some false, _ => consumeChunkTop flt p oc

def maxMetaEntrySize : Nat := 1048576

def initParser (m : Nat) : Parser :=
  { core := { state := .begin, wentry := none, metaAcc := [], ex := .null, gex := .null,
              entries := [], sigs := [], maxMeta := m },
    buffer := [], unzip := none, ended := false, gzIn := [], gzEnded := false,
    endSig := false }

def runWrites (flt : EntryInfo → Bool) (p : Parser) (cs : List Bytes) : Parser :=
  cs.foldl (fun q c => write flt q (some c)) p

/-! Concrete valid header blocks, for counterexamples and witnesses. -/

def octAscii (n : Nat) : Bytes := (Nat.toDigits 8 n).map Char.toNat

def padTo (len pad : Nat) (bs : Bytes) : Bytes := bs ++ List.replicate (len - bs.length) pad

def mkHeader (path : Bytes) (size : Nat) (typeKey : Nat) : Bytes :=
  let pre148 := padTo 100 0 path ++ List.replicate 24 0 ++ padTo 12 0 (octAscii size) ++
    List.replicate 12 0
  let tail356 := typeKey :: List.replicate 355 0
  let s := unsignedSum (pre148 ++ List.replicate 8 32 ++ tail356)
  pre148 ++ padTo 8 0 (octAscii s) ++ tail356

def fltT : EntryInfo → Bool := fun _ => true

/-- A complete well-formed archive fragment: one File header of size 1024
followed by its 1024 body bytes (two body blocks). -/
def exS : Bytes := mkHeader [97] 1024 48 ++ List.replicate 1024 7

/-! ## Archive creation: hard-link detection (src/unnamed/part_000
`[FILE]`/`[HARDLINK]`, identically src/unnamed/part_001)

`fileStep` is the decision taken for a File entry: when the stat link
count exceeds 1, compute the link key from (dev, ino) and consult the
link cache; a hit switches the entry to a hard link pointing at the
cached path with size 0 (`[HARDLINK]`), a miss records the mapping and
the entry keeps its full body.  The source keys its `Map` by the string
`dev + ':' + ino`; decimal numerals contain no `':'`, so that string is
in bijection with the pair (dev, ino), which the model uses directly.
`Map.set` is only reached when the key is absent, making it a plain
insertion. -/

structure FStat where
  dev : Nat
  ino : Nat
  nlink : Nat
  size : Nat
  deriving DecidableEq

abbrev LinkCache := List ((Nat × Nat) × Str)

inductive WOut
  | fileOut (path : Str) (size : Nat)
  | linkOut (path linkpath : Str) (size : Nat)
  deriving DecidableEq

def cacheGet : LinkCache → Nat × Nat → Option Str
  | [], _ => none
  | kv :: rest, key => if kv.1 = key then some kv.2 else cacheGet rest key

def fileStep (cache : LinkCache) (path : Str) (st : FStat) : LinkCache × WOut :=
  if 1 < st.nlink then
    match cacheGet cache (st.dev, st.ino) with
    | some lp => (cache, .linkOut path lp 0)
    | none => (((st.dev, st.ino), path) :: cache, .fileOut path st.size)
  else (cache, .fileOut path st.size)

/-- Process a sequence of File entries through one shared link cache, as a
creation run does. -/
def runCreate (cache : LinkCache) : List (Str × FStat) → LinkCache × List WOut
  | [] => (cache, [])
  | (p, st) :: rest =>
    let s := fileStep cache p st
    let r := runCreate s.1 rest
    (r.1, s.2 :: r.2)

def keyOf (st : FStat) : Nat × Nat := (st.dev, st.ino)

/-- An entry participates in hard-link detection for `key` when its link
count exceeds 1 and its (dev, ino) pair equals `key`. -/
def hardKey (key : Nat × Nat) (e : Str × FStat) : Bool :=
  decide (1 < e.2.nlink) && decide (keyOf e.2 = key)

/-! ## Archive creation: the body read callback (src/unnamed/part_000
`[READ]`/`[ONREAD]`)

`fs.read` reports either an error or a byte count; the `[READ]` callback
forwards an error to the entry's error channel (after closing the file)
and otherwise runs `[ONREAD]`, which throws the bare string `'wat'` when
the count is zero, zero-extends a final short read up to the block
length, forwards the bytes, and either finishes the entry (writing the
remaining block padding) or issues the next read. -/

inductive ReadOutcome
  | errorEmitted (code : Nat)
  | thrown (msg : String)
  | entryDone (written : Bytes) (padding : Nat)
  | readMore (written : Bytes) (pos remain blockRemain : Nat)
  deriving DecidableEq

def onread (buf : Bytes) (pos remain blockRemain bytesRead : Nat) : ReadOutcome :=
  if bytesRead = 0 then .thrown "wat"
  else
    let pad := if bytesRead = remain then
        min (buf.length - bytesRead) (blockRemain - bytesRead) else 0
    let br := bytesRead + pad
    let written := buf.take bytesRead ++ List.replicate pad 0
    let remainAfter := remain + pad - br
    if remainAfter = 0 then .entryDone written (blockRemain - br)
    else .readMore written (pos + br) remainAfter (blockRemain - br)

def readStep (er : Option Nat) (buf : Bytes) (pos remain blockRemain bytesRead : Nat) :
    ReadOutcome :=
  match er with
  | some e => .errorEmitted e
  | none => onread buf pos remain blockRemain bytesRead

/-! Fixtures for concrete witnesses. -/

def c4info : EntryInfo :=
  { typeKey := 48, size := 4, meta := false, unknownType := false, ex := .null, gex := .null }

def c4core : Core :=
  { state := .body,
    wentry := some { info := c4info, remain := 4, blockRemain := 512, ign := false,
                     idx := some 0 },
    metaAcc := [], ex := .null, gex := .null,
    entries := [{ info := c4info, body := [], ended := false }], sigs := [], maxMeta := 0 }

/-! ## 512-aligned chunking: invariant and observational equality -/

/-- Invariant maintained by the consume loop on 512-aligned input: an
in-progress entry's block remainder is a multiple of 512, and for data and
meta entries the body remainder does not exceed it. -/
def alignedCore (k : Core) : Prop :=
  ((k.state = .body ∨ k.state = .meta) →
    ∃ e, k.wentry = some e ∧ 512 ∣ e.blockRemain ∧ e.remain ≤ e.blockRemain) ∧
  (k.state = .ignore → ∃ e, k.wentry = some e ∧ 512 ∣ e.blockRemain)

/-- Observational equality of parser cores: every field agrees except
possibly a stale `wentry` kept after an ignored entry's block completed
(`consumeIgnoreBody` leaves the dead reference behind, with a
`blockRemain` that depends on how the ignored block was chunked; nothing
reads it once the state is back to `begin`). -/
def obsEq (k j : Core) : Prop :=
  k.state = j.state ∧ k.metaAcc = j.metaAcc ∧ k.ex = j.ex ∧ k.gex = j.gex ∧
  k.entries = j.entries ∧ k.sigs = j.sigs ∧ k.maxMeta = j.maxMeta ∧
  (k.state ≠ .begin → k.wentry = j.wentry)

/-- The core reached after the consume loop (the remainder is dealt with
separately; on aligned input it is empty). -/
def loopCore (flt : EntryInfo → Bool) (k : Core) (c : Bytes) : Core :=
  (loopP flt k c).1

/-! ## Sanity checks on the embedded definitions -/

example : pnormalize ("/a/../../b".toList) = "/b".toList := by decide
example : pjoin2 "/tmp/x".toList (pjoin2 ['/'] "../evil".toList) = "/tmp/x/evil".toList := by decide
example : fixPath "/tmp/x".toList 0 "../evil".toList = "/tmp/x/evil".toList := by decide
example : fixPath "/tmp/x".toList 1 "a/b/../c".toList = "/tmp/x/c".toList := by decide

example : (mkHeader [97] 1024 48).length = 512 := by decide
example : (decodeHeader (mkHeader [97] 1024 48)).cksumValid = true := by decide
example : (decodeHeader (mkHeader [97] 1024 48)).size = 1024 := by decide
example : (decodeHeader (mkHeader [97] 1024 48)).typeKey = 48 := by decide
example : (decodeHeader (List.replicate 512 0)).cksumValid = false := by decide

example :
    ((runWrites fltT (initParser maxMetaEntrySize)
        [mkHeader [97] 4 48 ++ padTo 512 0 [1, 2, 3, 4]]).core.entries.map
      (fun r => (r.body, r.ended))) = [([1, 2, 3, 4], true)] := by decide

example :
    ((runWrites fltT (initParser maxMetaEntrySize) [exS]).core.entries.map
      (fun r => (r.body.length, r.ended))) = [(1024, true)] := by decide

example :
    ((runWrites fltT (initParser maxMetaEntrySize)
        [exS.take 1112, exS.drop 1112]).core.entries.map
      (fun r => (r.body.length, r.ended))) = [(600, false)] := by decide

example : readStep none (List.replicate 512 0) 0 100 512 0 = .thrown "wat" := by decide
example : readStep (some 5) (List.replicate 512 0) 0 100 512 100 = .errorEmitted 5 := by decide

/-! ## Loop unfolding machinery -/

theorem consumeEntryBody_some (k : Core) (c : Bytes) (k1 : Core) (r : Bytes)
    (h : consumeEntryBody k c = (k1, some r)) :
    stateW k1.state = 0 ∧ r.length ≤ c.length := by
  rcases hw : k.wentry with _ | e
  · simp [consumeEntryBody, hw] at h
  · rcases Nat.lt_or_ge c.length e.remain with h1 | h1
    · simp [consumeEntryBody, hw, bodyStep, h1] at h
    · rcases Nat.lt_or_ge c.length e.blockRemain with h2 | h2
      · simp [consumeEntryBody, hw, bodyStep, h2, Nat.not_lt.mpr h1] at h
      · simp [consumeEntryBody, hw, bodyStep, Nat.not_lt.mpr h1, Nat.not_lt.mpr h2] at h
        obtain ⟨hk, hr⟩ := h
        subst hk; subst hr
        exact ⟨rfl, by simp⟩

theorem consumeMeta_some (k : Core) (c : Bytes) (k1 : Core) (r : Bytes)
    (h : consumeMeta k c = (k1, some r)) :
    stateW k1.state = 0 ∧ r.length ≤ c.length := by
  rcases hw : k.wentry with _ | e
  · simp [consumeMeta, hw] at h
  · rcases Nat.lt_or_ge c.length e.remain with h1 | h1
    · simp [consumeMeta, hw, bodyStep, h1] at h
    · rcases Nat.lt_or_ge c.length e.blockRemain with h2 | h2
      · simp [consumeMeta, hw, bodyStep, h2, Nat.not_lt.mpr h1] at h
      · simp [consumeMeta, hw, bodyStep, Nat.not_lt.mpr h1, Nat.not_lt.mpr h2] at h
        obtain ⟨hk, hr⟩ := h
        subst hk; subst hr
        refine ⟨?_, by simp⟩
        unfold metaDispatch
        split
        · rfl
        · split
          · rfl
          · split
            · rfl
            · split
              · rfl
              · rfl

theorem consumeIgnoreBody_some (k : Core) (c : Bytes) (k1 : Core) (r : Bytes)
    (h : consumeIgnoreBody k c = (k1, some r)) :
    stateW k1.state = 0 ∧ r.length ≤ c.length := by
  rcases hw : k.wentry with _ | e
  · simp [consumeIgnoreBody, hw] at h
  · rcases Nat.lt_or_ge c.length e.blockRemain with h1 | h1
    · simp [consumeIgnoreBody, hw, Nat.not_le.mpr h1] at h
    · simp [consumeIgnoreBody, hw, h1] at h
      obtain ⟨hk, hr⟩ := h
      subst hk; subst hr
      exact ⟨rfl, by simp⟩

theorem stateW_le (s : PState) : stateW s ≤ 1 := by
  unfold stateW; split <;> omega

theorem loopGo_fuel (flt : EntryInfo → Bool) :
    ∀ f g k c, 2 * c.length + stateW k.state < f → 2 * c.length + stateW k.state < g →
      loopGo flt f k c = loopGo flt g k c := by
  intro f
  induction f with
  | zero => intro g k c hf; omega
  | succ f ih =>
    intro g k c hf hg
    match g, hg with
    | g + 1, hg =>
    show loopGo flt (f + 1) k c = loopGo flt (g + 1) k c
    unfold loopGo
    by_cases hlen : c.length < 512
    · simp [hlen]
    · simp only [hlen, if_false]
      match hst : k.state with
      | .crashed t => rfl
      | .begin =>
        have hw0 : stateW k.state = 0 := by rw [hst]; rfl
        have hm : 2 * (c.drop 512).length +
            stateW (consumeHeader flt k (c.take 512)).state < 2 * c.length := by
          have := stateW_le (consumeHeader flt k (c.take 512)).state
          simp only [List.length_drop]
          omega
        exact ih g _ _ (by omega) (by omega)
      | .body =>
        have hw1 : stateW k.state = 1 := by rw [hst]; rfl
        match hb : consumeEntryBody k c with
        | (k1, none) => rfl
        | (k1, some r) =>
          obtain ⟨h1, h2⟩ := consumeEntryBody_some k c k1 r hb
          exact ih g k1 r (by omega) (by omega)
      | .meta =>
        have hw1 : stateW k.state = 1 := by rw [hst]; rfl
        match hb : consumeMeta k c with
        | (k1, none) => rfl
        | (k1, some r) =>
          obtain ⟨h1, h2⟩ := consumeMeta_some k c k1 r hb
          exact ih g k1 r (by omega) (by omega)
      | .ignore =>
        have hw1 : stateW k.state = 1 := by rw [hst]; rfl
        match hb : consumeIgnoreBody k c with
        | (k1, none) => rfl
        | (k1, some r) =>
          obtain ⟨h1, h2⟩ := consumeIgnoreBody_some k c k1 r hb
          exact ih g k1 r (by omega) (by omega)

/-- The one-step unfolding of the consume loop, stated in terms of
`loopP` itself. -/
theorem loopP_eq (flt : EntryInfo → Bool) (k : Core) (c : Bytes) :
    loopP flt k c =
      if c.length < 512 then (k, c)
      else
        match k.state with
        | .crashed _ => (k, [])
        | .begin => loopP flt (consumeHeader flt k (c.take 512)) (c.drop 512)
        | .body =>
          match consumeEntryBody k c with
          | (k1, none) => (k1, [])
          | (k1, some r) => loopP flt k1 r
        | .meta =>
          match consumeMeta k c with
          | (k1, none) => (k1, [])
          | (k1, some r) => loopP flt k1 r
        | .ignore =>
          match consumeIgnoreBody k c with
          | (k1, none) => (k1, [])
          | (k1, some r) => loopP flt k1 r := by
  have hwk := stateW_le k.state
  conv_lhs => rw [loopP]
  rw [show 2 * c.length + 2 = (2 * c.length + 1) + 1 from rfl]
  unfold loopGo
  by_cases hlen : c.length < 512
  · simp [hlen]
  · simp only [hlen, if_false]
    match hst : k.state with
    | .crashed t => rfl
    | .begin =>
      have hx := stateW_le (consumeHeader flt k (c.take 512)).state
      exact loopGo_fuel flt _ _ _ _
        (by simp only [List.length_drop]; omega)
        (by simp only [List.length_drop]; omega)
    | .body =>
      match hb : consumeEntryBody k c with
      | (k1, none) => rfl
      | (k1, some r) =>
        obtain ⟨h1, h2⟩ := consumeEntryBody_some k c k1 r hb
        exact loopGo_fuel flt _ _ _ _ (by omega) (by omega)
    | .meta =>
      match hb : consumeMeta k c with
      | (k1, none) => rfl
      | (k1, some r) =>
        obtain ⟨h1, h2⟩ := consumeMeta_some k c k1 r hb
        exact loopGo_fuel flt _ _ _ _ (by omega) (by omega)
    | .ignore =>
      match hb : consumeIgnoreBody k c with
      | (k1, none) => rfl
      | (k1, some r) =>
        obtain ⟨h1, h2⟩ := consumeIgnoreBody_some k c k1 r hb
        exact loopGo_fuel flt _ _ _ _ (by omega) (by omega)

/-! ## Hard-link cache lemmas -/

theorem fileStep_cacheGet_some (cache : LinkCache) (p : Str) (st : FStat)
    (key : Nat × Nat) (lp : Str) (h : cacheGet cache key = some lp) :
    cacheGet (fileStep cache p st).1 key = some lp := by
  unfold fileStep
  by_cases hn : 1 < st.nlink
  · simp only [hn, if_true]
    rcases hg : cacheGet cache (st.dev, st.ino) with _ | v
    · by_cases hk : (st.dev, st.ino) = key
      · rw [hk] at hg; rw [hg] at h; cases h
      · simp [cacheGet, hk, h]
    · simpa using h
  · simpa [hn] using h

theorem fileStep_cacheGet_none (cache : LinkCache) (p : Str) (st : FStat)
    (key : Nat × Nat) (h : cacheGet cache key = none)
    (hk : hardKey key (p, st) = false) :
    cacheGet (fileStep cache p st).1 key = none := by
  unfold fileStep
  by_cases hn : 1 < st.nlink
  · simp only [hn, if_true]
    rcases hg : cacheGet cache (st.dev, st.ino) with _ | v
    · have hk2 : ¬((st.dev, st.ino) = key) := by
        intro he
        simp [hardKey, keyOf, hn, he] at hk
      simp [cacheGet, hk2, h]
    · simpa using h
  · simpa [hn] using h

theorem runCreate_cons (cache : LinkCache) (p : Str) (st : FStat)
    (rest : List (Str × FStat)) :
    runCreate cache ((p, st) :: rest) =
      ((runCreate (fileStep cache p st).1 rest).1,
       (fileStep cache p st).2 :: (runCreate (fileStep cache p st).1 rest).2) := rfl

theorem hardKey_true (key : Nat × Nat) (e : Str × FStat) (h : hardKey key e = true) :
    1 < e.2.nlink ∧ keyOf e.2 = key := by
  unfold hardKey at h
  simp at h
  exact h

theorem runCreate_hit (key : Nat × Nat) (lp : Str) :
    ∀ (es : List (Str × FStat)) (cache : LinkCache), cacheGet cache key = some lp →
      ∀ (j : Nat) (pj : Str × FStat), es[j]? = some pj → hardKey key pj = true →
        (runCreate cache es).2[j]? = some (WOut.linkOut pj.1 lp 0) := by
  intro es
  induction es with
  | nil => intro cache hc j pj hj hk; simp at hj
  | cons e0 rest ih =>
    intro cache hc j pj hj hk
    match e0 with
    | (p0, st0) =>
    rw [runCreate_cons]
    match j with
    | 0 =>
      simp only [List.getElem?_cons_zero, Option.some.injEq] at hj
      subst hj
      obtain ⟨hn, hkey⟩ := hardKey_true key (p0, st0) hk
      have hkey2 : (st0.dev, st0.ino) = key := hkey
      have hn2 : 1 < st0.nlink := hn
      simp only [List.getElem?_cons_zero, Option.some.injEq]
      unfold fileStep
      rw [hkey2, hc]
      simp [hn2]
    | j + 1 =>
      simp only [List.getElem?_cons_succ] at hj ⊢
      exact ih (fileStep cache p0 st0).1 (fileStep_cacheGet_some cache p0 st0 key lp hc)
        j pj hj hk

theorem runCreate_first (key : Nat × Nat) :
    ∀ (es : List (Str × FStat)) (cache : LinkCache), cacheGet cache key = none →
      ∀ (j : Nat) (pj : Str × FStat), es[j]? = some pj → hardKey key pj = true →
        ∃ j0 p0, es.findIdx? (hardKey key) = some j0 ∧ es[j0]? = some p0 ∧
          ((j0 = j ∧ (runCreate cache es).2[j]? = some (WOut.fileOut pj.1 pj.2.size)) ∨
           (j0 < j ∧ (runCreate cache es).2[j]? = some (WOut.linkOut pj.1 p0.1 0))) := by
  intro es
  induction es with
  | nil => intro cache hc j pj hj hk; simp at hj
  | cons e0 rest ih =>
    intro cache hc j pj hj hk
    match e0 with
    | (p0, st0) =>
    by_cases h0 : hardKey key (p0, st0) = true
    · obtain ⟨hn, hkey⟩ := hardKey_true key (p0, st0) h0
      have hkey2 : (st0.dev, st0.ino) = key := hkey
      have hn2 : 1 < st0.nlink := hn
      have hstep : fileStep cache p0 st0 = ((key, p0) :: cache, WOut.fileOut p0 st0.size) := by
        unfold fileStep
        rw [hkey2, hc]
        simp [hn2]
      refine ⟨0, (p0, st0), by simp [List.findIdx?_cons, h0], by simp, ?_⟩
      match j with
      | 0 =>
        simp only [List.getElem?_cons_zero, Option.some.injEq] at hj
        subst hj
        left
        refine ⟨rfl, ?_⟩
        rw [runCreate_cons, hstep]
        simp
      | j + 1 =>
        simp only [List.getElem?_cons_succ] at hj
        right
        refine ⟨Nat.succ_pos j, ?_⟩
        rw [runCreate_cons, hstep]
        simp only [List.getElem?_cons_succ]
        exact runCreate_hit key p0 rest ((key, p0) :: cache) (by simp [cacheGet]) j pj hj hk
    · have h0f : hardKey key (p0, st0) = false := by
        cases hb : hardKey key (p0, st0)
        · rfl
        · exact absurd hb h0
      match j with
      | 0 =>
        simp only [List.getElem?_cons_zero, Option.some.injEq] at hj
        subst hj
        rw [hk] at h0f; cases h0f
      | j + 1 =>
        simp only [List.getElem?_cons_succ] at hj
        obtain ⟨j0, q0, hfind, hget, hcase⟩ :=
          ih (fileStep cache p0 st0).1 (fileStep_cacheGet_none cache p0 st0 key hc h0f)
            j pj hj hk
        refine ⟨j0 + 1, q0, ?_, by simpa using hget, ?_⟩
        · rw [List.findIdx?_cons, h0f]
          simp [hfind]
        · rcases hcase with ⟨he, hout⟩ | ⟨hlt, hout⟩
          · left
            refine ⟨by omega, ?_⟩
            rw [runCreate_cons]
            simpa using hout
          · right
            refine ⟨by omega, ?_⟩
            rw [runCreate_cons]
            simpa using hout

/-! ## Claim C3 -/

/-- Claim C3 (counterexample): processing the same path twice with a
shared (dev, ino) and link count 2 encodes the second occurrence as a
hard link pointing at itself, although the cached archive path does not
differ from the current entry's path — the source consults only
`linkCache.has(linkKey)` and never compares the cached path with the
current one, so the claim's "and the cached archive path differs from the
current entry's path" condition is not implemented. -/
theorem c3_counterexample :
    (runCreate [] [(['a'], ⟨1, 2, 2, 5⟩), (['a'], ⟨1, 2, 2, 5⟩)]).2 =
      [WOut.fileOut ['a'] 5, WOut.linkOut ['a'] ['a'] 0] := by decide

/-- Claim C3 (amended): for a File with link count > 1 the link key is
(dev, ino); when the cache holds the key the entry becomes a hard link
with the cached path as linkpath and size 0 — whether or not the cached
path equals the current path — and otherwise the mapping is recorded and
the entry keeps its full body.  Consequently, among the entries sharing a
(dev, ino) with link count > 1, exactly the first occurrence is encoded
with its full body and every later one is a hard link at the first one's
archive path. -/
theorem c3_hardlink_cache :
    (∀ (cache : LinkCache) (p : Str) (st : FStat) (lp : Str), 1 < st.nlink →
      cacheGet cache (keyOf st) = some lp →
      fileStep cache p st = (cache, WOut.linkOut p lp 0)) ∧
    (∀ (es : List (Str × FStat)) (j : Nat) (pj : Str × FStat),
      es[j]? = some pj → 1 < pj.2.nlink →
      ∃ j0 p0, es.findIdx? (hardKey (keyOf pj.2)) = some j0 ∧ es[j0]? = some p0 ∧
        ((j0 = j ∧ (runCreate [] es).2[j]? = some (WOut.fileOut pj.1 pj.2.size)) ∨
         (j0 < j ∧ (runCreate [] es).2[j]? = some (WOut.linkOut pj.1 p0.1 0)))) := by
  constructor
  · intro cache p st lp hn hc
    unfold fileStep
    rw [show (st.dev, st.ino) = keyOf st from rfl, hc]
    simp [hn]
  · intro es j pj hj hn
    exact runCreate_first (keyOf pj.2) es [] rfl j pj hj
      (by unfold hardKey; simp [hn])

/-- Witness for C3 (amended), at the spec's S6 scenario: paths `a`, `b`
sharing dev 1, ino 2: `a` is a File with its body, `b` a Link at `a`. -/
theorem c3_hardlink_cache_witness :
    (1 < (⟨1, 2, 2, 7⟩ : FStat).nlink ∧
      cacheGet [((1, 2), ['a'])] (keyOf ⟨1, 2, 2, 7⟩) = some ['a'] ∧
      fileStep [((1, 2), ['a'])] ['b'] ⟨1, 2, 2, 7⟩ =
        ([((1, 2), ['a'])], WOut.linkOut ['b'] ['a'] 0)) ∧
    (∃ j0 p0,
      List.findIdx? (hardKey (keyOf (⟨1, 2, 2, 7⟩ : FStat)))
          [(['a'], ⟨1, 2, 2, 5⟩), (['b'], ⟨1, 2, 2, 7⟩)] = some j0 ∧
      [(['a'], (⟨1, 2, 2, 5⟩ : FStat)), (['b'], ⟨1, 2, 2, 7⟩)][j0]? = some p0 ∧
      ((j0 = 1 ∧ (runCreate [] [(['a'], ⟨1, 2, 2, 5⟩), (['b'], ⟨1, 2, 2, 7⟩)]).2[1]? =
          some (WOut.fileOut ['b'] 7)) ∨
       (j0 < 1 ∧ (runCreate [] [(['a'], ⟨1, 2, 2, 5⟩), (['b'], ⟨1, 2, 2, 7⟩)]).2[1]? =
          some (WOut.linkOut ['b'] p0.1 0)))) := by
  constructor
  · exact ⟨by decide, by decide,
      c3_hardlink_cache.1 [((1, 2), ['a'])] ['b'] ⟨1, 2, 2, 7⟩ ['a'] (by decide) (by decide)⟩
  · exact c3_hardlink_cache.2 [(['a'], ⟨1, 2, 2, 5⟩), (['b'], ⟨1, 2, 2, 7⟩)] 1
      (['b'], ⟨1, 2, 2, 7⟩) (by decide) (by decide)

/-! ## Claim C5 -/

/-- Claim C5: a 512-byte block with an invalid checksum makes the parser
emit `invalidHeader` and change nothing else — it stays in `begin` — and
the consume loop then continues with the bytes right after the block, so
parsing advances one block at a time past invalid headers. -/
theorem c5_invalid_header (flt : EntryInfo → Bool) (k : Core) (block rest : Bytes)
    (hst : k.state = .begin) (hblk : block.length = 512)
    (hinv : (decodeHeader block).cksumValid = false) :
    consumeHeader flt k block = { k with sigs := k.sigs ++ [.invalidHeader] } ∧
    loopP flt k (block ++ rest) =
      loopP flt { k with sigs := k.sigs ++ [.invalidHeader] } rest := by
  have h1 : consumeHeader flt k block = { k with sigs := k.sigs ++ [.invalidHeader] } := by
    simp [consumeHeader, hinv]
  refine ⟨h1, ?_⟩
  rw [loopP_eq]
  have hlen : ¬((block ++ rest).length < 512) := by
    simp [hblk]
  simp only [hlen, if_false, hst]
  have ht : (block ++ rest).take 512 = block := by
    rw [← hblk]; exact List.take_left block rest
  have hd : (block ++ rest).drop 512 = rest := by
    rw [← hblk]; exact List.drop_left block rest
  rw [ht, hd, h1, hst]

/-- Witness for C5 at a null block (all zeros), whose stored checksum 0
differs from the space-filled sums. -/
theorem c5_invalid_header_witness :
    (initParser 5).core.state = .begin ∧
    (List.replicate 512 0 : Bytes).length = 512 ∧
    (decodeHeader (List.replicate 512 0)).cksumValid = false ∧
    (consumeHeader fltT (initParser 5).core (List.replicate 512 0) =
        { (initParser 5).core with sigs := [.invalidHeader] } ∧
      loopP fltT (initParser 5).core (List.replicate 512 0 ++ []) =
        loopP fltT { (initParser 5).core with sigs := [.invalidHeader] } []) := by
  refine ⟨rfl, by decide, by decide, ?_⟩
  exact c5_invalid_header fltT (initParser 5).core (List.replicate 512 0) [] rfl
    (by decide) (by decide)

/-! ## Claim C7 -/

/-- Claim C7 (code bug): on a valid meta header whose size exceeds
`maxMetaEntrySize` the parser emits the `metaEntryTooLarge` signal and
marks the entry ignored, but the next statement `this[STATE] = ignore`
reads an identifier that is defined nowhere, so in strict mode a
`ReferenceError` is thrown out of `write` instead of transitioning to the
`ignore` state and continuing; the claim's final behaviour is the clear
intent (every other state assignment in the file uses the string
`'ignore'`). -/
theorem c7_oversize_meta (flt : EntryInfo → Bool) (k : Core) (block : Bytes)
    (hval : (decodeHeader block).cksumValid = true)
    (hmeta : isMetaType (decodeHeader block).typeKey = true)
    (hsz : k.maxMeta < (decodeHeader block).size) :
    consumeHeader flt k block =
      { k with
          wentry := some { info := newEntryInfo k (decodeHeader block),
                           remain := (decodeHeader block).size,
                           blockRemain := 512 * (((decodeHeader block).size + 511) / 512),
                           ign := true, idx := none },
          sigs := k.sigs ++ [.metaEntryTooLarge (newEntryInfo k (decodeHeader block))],
          state := .crashed .refErrorIgnore } := by
  have hm : (newEntryInfo k (decodeHeader block)).meta = true := by
    unfold newEntryInfo; exact hmeta
  simp [consumeHeader, hval, hm, hsz]

/-- Witness for C7: an `x` (ExtendedHeader) block of size 1048577 against
the default 1 MiB limit. -/
theorem c7_oversize_meta_witness :
    (decodeHeader (mkHeader [97] 1048577 120)).cksumValid = true ∧
    isMetaType (decodeHeader (mkHeader [97] 1048577 120)).typeKey = true ∧
    (initParser maxMetaEntrySize).core.maxMeta <
      (decodeHeader (mkHeader [97] 1048577 120)).size ∧
    (consumeHeader fltT (initParser maxMetaEntrySize).core (mkHeader [97] 1048577 120)).state =
      .crashed .refErrorIgnore := by
  refine ⟨by decide, by decide, by decide, ?_⟩
  rw [c7_oversize_meta fltT (initParser maxMetaEntrySize).core (mkHeader [97] 1048577 120)
    (by decide) (by decide) (by decide)]

/-! ## Claim C8 -/

/-- Claim C8 (code bug): when a body read reports zero bytes before the
entry is complete, `[ONREAD]` throws the bare string `'wat'` — an
uncaught exception aborting the host — instead of surfacing a corruption
error on the entry's error channel; only `fs.read` failures reach the
error channel.  The spec's design notes name this very statement as the
slip and the error channel as the intent. -/
theorem c8_zero_read_throws :
    readStep none (List.replicate 512 7) 0 100 512 0 = .thrown "wat" ∧
    readStep (some 9) (List.replicate 512 7) 0 100 512 0 = .errorEmitted 9 := by
  exact ⟨by decide, by decide⟩

/-! ## Claim C4 -/

theorem recWrite_at (rs : List EntryRec) (i : Nat) (r0 : EntryRec) (data : Bytes)
    (ende : Bool) (h : rs[i]? = some r0) :
    (recWrite rs (some i) data ende)[i]? =
      some { r0 with body := r0.body ++ data, ended := r0.ended || ende } := by
  have hb : i < rs.length := (List.getElem?_eq_some.mp h).1
  simp only [recWrite, h]
  exact List.getElem?_set_self (by simpa using hb)

/-- Claim C4: in the body state with an active entry satisfying
`remain ≤ blockRemain`, a chunk of length `len` is consumed by exactly
`min len blockRemain` bytes — the unconsumed suffix is returned exactly
when the block completes — exactly `min len remain` bytes are forwarded
to the entry's body and the trailing padding is dropped, the remaining
counts decrease by the forwarded/consumed amounts, the entry is ended
exactly when the remaining body count reaches zero, and the parser
returns to `begin` exactly when the block remainder reaches zero. -/
theorem c4_body_consumption (k : Core) (c : Bytes) (e : WEntry) (i : Nat) (r0 : EntryRec)
    (hw : k.wentry = some e) (hi : e.idx = some i) (hr0 : k.entries[i]? = some r0)
    (hrb : e.remain ≤ e.blockRemain) :
    (consumeEntryBody k c).2 =
      (if e.blockRemain ≤ c.length then some (c.drop e.blockRemain) else none) ∧
    (consumeEntryBody k c).1.entries[i]? = some
      { r0 with body := r0.body ++ c.take (min c.length e.remain),
                ended := r0.ended || decide (e.remain - min c.length e.remain = 0) } ∧
    (consumeEntryBody k c).1.state =
      (if e.blockRemain ≤ c.length then .begin else k.state) ∧
    (consumeEntryBody k c).1.wentry =
      (if e.blockRemain ≤ c.length then none
       else some { e with remain := e.remain - min c.length e.remain,
                          blockRemain := e.blockRemain - min c.length e.blockRemain }) := by
  rcases Nat.lt_or_ge c.length e.remain with h1 | h1
  · -- the chunk does not finish the body
    have h2 : ¬(e.blockRemain ≤ c.length) := by omega
    have hmin : min c.length e.remain = c.length := by omega
    have hmin2 : min c.length e.blockRemain = c.length := by omega
    have hend : (e.remain - c.length = 0) = False := by
      simp only [eq_iff_iff, iff_false]
      omega
    have hrw := recWrite_at k.entries i r0 c false hr0
    refine ⟨?_, ?_, ?_, ?_⟩ <;>
      simp [consumeEntryBody, hw, hi, bodyStep, h1, h2, hmin, hmin2, hend, hrw,
        List.take_of_length_le (le_refl c.length)]
  · rcases Nat.lt_or_ge c.length e.blockRemain with h2 | h2
    · -- finishes the body but not the block
      have h2n : ¬(e.blockRemain ≤ c.length) := by omega
      have hmin : min c.length e.remain = e.remain := by omega
      have hmin2 : min c.length e.blockRemain = c.length := by omega
      have hrw := recWrite_at k.entries i r0 (c.take e.remain) true hr0
      refine ⟨?_, ?_, ?_, ?_⟩ <;>
        simp [consumeEntryBody, hw, hi, bodyStep, Nat.not_lt.mpr h1, h2, h2n, hmin, hmin2,
          hrw]
    · -- finishes body and block
      have hmin : min c.length e.remain = e.remain := by omega
      have hrw := recWrite_at k.entries i r0 (c.take e.remain) true hr0
      refine ⟨?_, ?_, ?_, ?_⟩ <;>
        simp [consumeEntryBody, hw, hi, bodyStep, Nat.not_lt.mpr h1, Nat.not_lt.mpr h2, h2,
          hmin, hrw]

/-- Witness for C4 on a 6-byte chunk against remain 4, blockRemain 512. -/
theorem c4_body_consumption_witness :
    (consumeEntryBody c4core [1, 2, 3, 4, 5, 6]).2 =
      (if (512 : Nat) ≤ ([1, 2, 3, 4, 5, 6] : Bytes).length
       then some (([1, 2, 3, 4, 5, 6] : Bytes).drop 512) else none) ∧
    (consumeEntryBody c4core [1, 2, 3, 4, 5, 6]).1.entries[0]? = some
      { info := c4info,
        body := [] ++ ([1, 2, 3, 4, 5, 6] : Bytes).take (min 6 4),
        ended := false || decide (4 - min ([1, 2, 3, 4, 5, 6] : Bytes).length 4 = 0) } ∧
    (consumeEntryBody c4core [1, 2, 3, 4, 5, 6]).1.state =
      (if (512 : Nat) ≤ ([1, 2, 3, 4, 5, 6] : Bytes).length then .begin else c4core.state) ∧
    (consumeEntryBody c4core [1, 2, 3, 4, 5, 6]).1.wentry =
      (if (512 : Nat) ≤ ([1, 2, 3, 4, 5, 6] : Bytes).length then none
       else some { info := c4info, remain := 4 - min 6 4,
                   blockRemain := 512 - min 6 512, ign := false, idx := some 0 }) := by
  exact c4_body_consumption c4core [1, 2, 3, 4, 5, 6]
    { info := c4info, remain := 4, blockRemain := 512, ign := false, idx := some 0 } 0
    { info := c4info, body := [], ended := false } rfl rfl rfl (by decide)

/-! ## Claim C10 -/

/-- Claim C10: per-entry extended overrides and the global overrides,
through every consumer: an invalid header changes nothing but the
signal list; a valid non-meta header builds its entry from the pending
per-entry and global overrides, records it (in the queue or as an
ignored-entry signal — so a filtered entry also consumes the override),
clears the per-entry override slot and leaves the global slot alone; a
valid meta header leaves both slots alone, as does an unfinished meta
body; the completion dispatch replaces the global slot only for a
GlobalExtendedHeader (building on the prior global value) and otherwise
updates only the per-entry slot; body and ignore consumption never touch
either slot. -/
theorem c10_override_lifecycle (flt : EntryInfo → Bool) (k : Core) (block c : Bytes) :
    ((decodeHeader block).cksumValid = false →
      consumeHeader flt k block = { k with sigs := k.sigs ++ [.invalidHeader] }) ∧
    ((decodeHeader block).cksumValid = true →
      isMetaType (decodeHeader block).typeKey = false →
      (newEntryInfo k (decodeHeader block)).ex = k.ex ∧
      (newEntryInfo k (decodeHeader block)).gex = k.gex ∧
      (consumeHeader flt k block).ex = Ov.null ∧
      (consumeHeader flt k block).gex = k.gex ∧
      ((consumeHeader flt k block).entries =
          k.entries ++ [{ info := newEntryInfo k (decodeHeader block), body := [],
                          ended := (decodeHeader block).size == 0 }] ∨
       (consumeHeader flt k block).sigs =
          k.sigs ++ [.ignoredEntry (newEntryInfo k (decodeHeader block))])) ∧
    ((decodeHeader block).cksumValid = true →
      isMetaType (decodeHeader block).typeKey = true →
      (consumeHeader flt k block).ex = k.ex ∧ (consumeHeader flt k block).gex = k.gex) ∧
    ((consumeMeta k c).2 = none →
      (consumeMeta k c).1.ex = k.ex ∧ (consumeMeta k c).1.gex = k.gex) ∧
    (∀ tk : Nat, tk ≠ 103 → (metaDispatch k tk).gex = k.gex) ∧
    ((metaDispatch k 103).gex = Ov.paxParse k.metaAcc k.gex true ∧
      (metaDispatch k 103).ex = k.ex) ∧
    ((consumeEntryBody k c).1.ex = k.ex ∧ (consumeEntryBody k c).1.gex = k.gex) ∧
    ((consumeIgnoreBody k c).1.ex = k.ex ∧ (consumeIgnoreBody k c).1.gex = k.gex) := by
  refine ⟨?_, ?_, ?_, ?_, ?_, ?_, ?_, ?_⟩
  · intro hinv
    simp [consumeHeader, hinv]
  · intro hval hmeta
    have hm : (newEntryInfo k (decodeHeader block)).meta = false := by
      unfold newEntryInfo; exact hmeta
    refine ⟨rfl, rfl, ?_⟩
    simp only [consumeHeader, hval, Bool.not_true, Bool.false_eq_true, if_false, hm]
    by_cases hign : ((newEntryInfo k (decodeHeader block)).unknownType ||
        !flt (newEntryInfo k (decodeHeader block))) = true
    · simp [hign]
    · simp [hign]
  · intro hval hmeta
    have hm : (newEntryInfo k (decodeHeader block)).meta = true := by
      unfold newEntryInfo; exact hmeta
    simp only [consumeHeader, hval, Bool.not_true, Bool.false_eq_true, if_false, hm]
    by_cases hsz : k.maxMeta < (decodeHeader block).size
    · simp [hsz]
    · simp [hsz]
  · intro hnone
    rcases hw : k.wentry with _ | e
    · simp [consumeMeta, hw]
    · rcases Nat.lt_or_ge c.length e.remain with h1 | h1
      · simp [consumeMeta, hw, bodyStep, h1]
      · rcases Nat.lt_or_ge c.length e.blockRemain with h2 | h2
        · simp [consumeMeta, hw, bodyStep, h2, Nat.not_lt.mpr h1]
        · simp [consumeMeta, hw, bodyStep, Nat.not_lt.mpr h1, Nat.not_lt.mpr h2] at hnone
  · intro tk htk
    unfold metaDispatch
    by_cases h1 : (decide (tk = 120) || decide (tk = 88)) = true
    · simp [h1]
    · by_cases h3 : (decide (tk = 76) || decide (tk = 78)) = true
      · simp [h1, h3, htk]
      · by_cases h4 : tk = 75
        · simp [h1, h3, h4, htk]
        · simp [h1, h3, h4, htk]
  · constructor
    · unfold metaDispatch
      simp
    · unfold metaDispatch
      simp
  · rcases hw : k.wentry with _ | e
    · simp [consumeEntryBody, hw]
    · rcases Nat.lt_or_ge c.length e.remain with h1 | h1
      · simp [consumeEntryBody, hw, bodyStep, h1]
      · rcases Nat.lt_or_ge c.length e.blockRemain with h2 | h2
        · simp [consumeEntryBody, hw, bodyStep, h2, Nat.not_lt.mpr h1]
        · simp [consumeEntryBody, hw, bodyStep, Nat.not_lt.mpr h1, Nat.not_lt.mpr h2]
  · rcases hw : k.wentry with _ | e
    · simp [consumeIgnoreBody, hw]
    · rcases Nat.lt_or_ge c.length e.blockRemain with h1 | h1
      · simp [consumeIgnoreBody, hw, Nat.not_le.mpr h1]
      · simp [consumeIgnoreBody, hw, h1]

/-- Witness for C10 at a valid File header against a pending override. -/
theorem c10_override_lifecycle_witness :
    (decodeHeader (mkHeader [97] 0 48)).cksumValid = true ∧
    isMetaType (decodeHeader (mkHeader [97] 0 48)).typeKey = false ∧
    (newEntryInfo { c4core with ex := Ov.setPath [1] Ov.null } (decodeHeader (mkHeader [97] 0 48))).ex =
      Ov.setPath [1] Ov.null ∧
    (consumeHeader fltT { c4core with ex := Ov.setPath [1] Ov.null } (mkHeader [97] 0 48)).ex =
      Ov.null := by
  refine ⟨by decide, by decide, ?_, ?_⟩
  · exact ((c10_override_lifecycle fltT { c4core with ex := Ov.setPath [1] Ov.null }
      (mkHeader [97] 0 48) []).2.1 (by decide) (by decide)).1
  · exact ((c10_override_lifecycle fltT { c4core with ex := Ov.setPath [1] Ov.null }
      (mkHeader [97] 0 48) []).2.1 (by decide) (by decide)).2.2.1

/-! ## Claim C6 -/

theorem consumeChunkTop_unzip (flt : EntryInfo → Bool) (p : Parser) (oc : Option Bytes) :
    (consumeChunkTop flt p oc).unzip = p.unzip := by
  rcases oc with _ | c
  · simp only [consumeChunkTop]
    split <;> rfl
  · simp only [consumeChunkTop]
    split
    · rfl
    · split
      · rfl
      · split <;> rfl

/-- Claim C6: gzip auto-detection.  On a write carrying data while the
decision is open, fewer than two accumulated bytes are buffered and the
decision deferred; with two or more, the decision is exactly "the first
two accumulated bytes are 0x1f 0x8b" — when they match, the input (and
all subsequent input) is handed to the inflator and the direct consume
path is not taken, otherwise the accumulated bytes are consumed directly;
and once set the decision is never changed by any later write. -/
theorem c6_gzip_detection (flt : EntryInfo → Bool) :
    (∀ (p : Parser) (c0 : Bytes), isCrashed p.core = false → p.unzip = none →
      (p.buffer ++ c0).length < 2 →
      write flt p (some c0) = { p with buffer := p.buffer ++ c0 }) ∧
    (∀ (p : Parser) (c0 : Bytes), isCrashed p.core = false → p.unzip = none →
      2 ≤ (p.buffer ++ c0).length →
      ((p.buffer ++ c0).take 2 = [31, 139] →
        write flt p (some c0) =
          { p with
            buffer := [],
            unzip := some true,
            gzIn := p.gzIn ++ [p.buffer ++ c0],
            gzEnded := p.ended }) ∧
      ((p.buffer ++ c0).take 2 ≠ [31, 139] →
        write flt p (some c0) =
          consumeChunkTop flt { p with buffer := [], unzip := some false }
            (some (p.buffer ++ c0)))) ∧
    (∀ (p : Parser) (oc : Option Bytes) (b : Bool), p.unzip = some b →
      (write flt p oc).unzip = some b) := by
  refine ⟨?_, ?_, ?_⟩
  · intro p c0 hcr hz hlen
    simp only [write, hcr, Bool.false_eq_true, if_false, hz]
    rw [if_pos hlen]
  · intro p c0 hcr hz hlen
    constructor
    · intro hgz
      simp only [write, hcr, Bool.false_eq_true, if_false, hz]
      rw [if_neg (Nat.not_lt.mpr hlen), if_pos hgz]
    · intro hgz
      simp only [write, hcr, Bool.false_eq_true, if_false, hz]
      rw [if_neg (Nat.not_lt.mpr hlen), if_neg hgz]
  · intro p oc b hz
    by_cases hcr : isCrashed p.core = true
    · simp [write, hcr, hz]
    · have hcrf : isCrashed p.core = false := by
        rwa [Bool.not_eq_true] at hcr
      rcases oc with _ | c
      · cases b
        · simp only [write, hcrf, Bool.false_eq_true, if_false, hz]
          rw [consumeChunkTop_unzip]
          exact hz
        · simp only [write, hcrf, Bool.false_eq_true, if_false, hz]
      · cases b
        · simp only [write, hcrf, Bool.false_eq_true, if_false, hz]
          rw [consumeChunkTop_unzip]
          exact hz
        · simp only [write, hcrf, Bool.false_eq_true, if_false, hz]

/-- Witness for C6: a one-byte write defers, `[0x1f, 0x8b]` routes to the
inflator, a plain header byte pair goes to the direct path, and the
decision sticks. -/
theorem c6_gzip_detection_witness :
    write fltT (initParser 9) (some [31]) = { initParser 9 with buffer := [31] } ∧
    write fltT { initParser 9 with buffer := [31] } (some [139]) =
      { initParser 9 with
        buffer := [],
        unzip := some true,
        gzIn := [[31, 139]],
        gzEnded := false } ∧
    write fltT (initParser 9) (some [97, 98]) =
      consumeChunkTop fltT { initParser 9 with buffer := [], unzip := some false }
        (some [97, 98]) ∧
    (write fltT { initParser 9 with unzip := some true } (some [1, 2])).unzip = some true := by
  refine ⟨?_, ?_, ?_, ?_⟩
  · exact (c6_gzip_detection fltT).1 (initParser 9) [31] rfl rfl (by decide)
  · have h := ((c6_gzip_detection fltT).2.1 { initParser 9 with buffer := [31] } [139]
      rfl rfl (by decide)).1 (by decide)
    simpa using h
  · have h := ((c6_gzip_detection fltT).2.1 (initParser 9) [97, 98]
      rfl rfl (by decide)).2 (by decide)
    simpa using h
  · exact (c6_gzip_detection fltT).2.2 { initParser 9 with unzip := some true }
      (some [1, 2]) true rfl

/-! ## Path normalization lemmas (for claims C2 and C9) -/

theorem splitSlash_ne_nil (p : Str) : splitSlash p ≠ [] := by
  cases p with
  | nil => simp [splitSlash]
  | cons c rest =>
    unfold splitSlash
    by_cases h : c = '/'
    · simp [h]
    · simp only [h, if_false]
      rcases hs : splitSlash rest with _ | ⟨q, qs⟩ <;> simp

theorem splitSlash_cons_slash (p : Str) : splitSlash ('/' :: p) = [] :: splitSlash p := by
  simp [splitSlash]

theorem splitSlash_cons_ne (c : Char) (p : Str) (h : ¬c = '/') (q : Str) (qs : List Str)
    (hs : splitSlash p = q :: qs) : splitSlash (c :: p) = (c :: q) :: qs := by
  rw [show splitSlash (c :: p) =
    (if c = '/' then [] :: splitSlash p
     else match splitSlash p with
          | [] => [[c]]
          | q :: qs => (c :: q) :: qs) from rfl]
  rw [if_neg h, hs]

theorem splitSlash_append (a b : Str) :
    splitSlash (a ++ '/' :: b) = splitSlash a ++ splitSlash b := by
  induction a with
  | nil => simpa using splitSlash_cons_slash b
  | cons c rest ih =>
    by_cases h : c = '/'
    · subst h
      rw [List.cons_append, splitSlash_cons_slash, splitSlash_cons_slash, ih,
        List.cons_append]
    · rcases hs : splitSlash rest with _ | ⟨q, qs⟩
      · exact absurd hs (splitSlash_ne_nil rest)
      · have hs2 : splitSlash (rest ++ '/' :: b) = q :: (qs ++ splitSlash b) := by
          rw [ih, hs]; rfl
        rw [List.cons_append, splitSlash_cons_ne c _ h q (qs ++ splitSlash b) hs2,
          splitSlash_cons_ne c rest h q qs hs]
        rfl

theorem splitSlash_no_slash (p : Str) : ∀ c ∈ splitSlash p, '/' ∉ c := by
  induction p with
  | nil => simp [splitSlash]
  | cons c rest ih =>
    by_cases h : c = '/'
    · subst h
      rw [splitSlash_cons_slash]
      intro x hx
      rcases List.mem_cons.mp hx with hx | hx
      · subst hx; simp
      · exact ih x hx
    · rcases hs : splitSlash rest with _ | ⟨q, qs⟩
      · exact absurd hs (splitSlash_ne_nil rest)
      · rw [splitSlash_cons_ne c rest h q qs hs]
        intro x hx
        rcases List.mem_cons.mp hx with hx | hx
        · subst hx
          intro hmem
          rcases List.mem_cons.mp hmem with hm | hm
          · exact h hm.symm
          · exact ih q (by rw [hs]; exact List.mem_cons_self q qs) hm
        · exact ih x (by rw [hs]; exact List.mem_cons_of_mem q hx)

theorem splitSlash_singleton (p : Str) (h : '/' ∉ p) : splitSlash p = [p] := by
  induction p with
  | nil => simp [splitSlash]
  | cons c rest ih =>
    have hc : ¬(c = '/') := by
      intro he; exact h (by rw [he]; simp)
    have hrest : '/' ∉ rest := by
      intro hm; exact h (by simp [hm])
    unfold splitSlash
    simp only [hc, if_false]
    rw [ih hrest]

theorem splitSlash_joinSlash (cs : List Str) (hne : cs ≠ [])
    (h : ∀ c ∈ cs, '/' ∉ c) : splitSlash (joinSlash cs) = cs := by
  induction cs with
  | nil => exact absurd rfl hne
  | cons c rest ih =>
    rcases rest with _ | ⟨d, ds⟩
    · exact splitSlash_singleton c (h c (by simp))
    · show splitSlash (c ++ '/' :: joinSlash (d :: ds)) = c :: d :: ds
      rw [splitSlash_append, splitSlash_singleton c (h c (by simp)),
        ih (by simp) (fun x hx => h x (by simp [hx]))]
      rfl

theorem joinSlash_append (A B : List Str) (hA : A ≠ []) (hB : B ≠ []) :
    joinSlash (A ++ B) = joinSlash A ++ '/' :: joinSlash B := by
  induction A with
  | nil => exact absurd rfl hA
  | cons a arest ih =>
    rcases arest with _ | ⟨a2, arest2⟩
    · rcases B with _ | ⟨b, bs⟩
      · exact absurd rfl hB
      · rfl
    · show joinSlash (a :: (a2 :: arest2 ++ B)) = _
      have h2 : a2 :: arest2 ++ B ≠ [] := by simp
      rcases hx : a2 :: arest2 ++ B with _ | ⟨y, ys⟩
      · exact absurd hx h2
      · show a ++ '/' :: joinSlash (y :: ys) = (a ++ '/' :: joinSlash (a2 :: arest2)) ++ _
        rw [← hx, ih (by simp) ]
        simp

theorem joinSlash_ne_nil (C : List Str) (h0 : C ≠ []) (h : ∀ c ∈ C, c ≠ []) :
    joinSlash C ≠ [] := by
  rcases C with _ | ⟨c, cs⟩
  · exact absurd rfl h0
  · rcases cs with _ | ⟨d, ds⟩
    · exact h c (by simp)
    · show c ++ '/' :: joinSlash (d :: ds) ≠ []
      simp

theorem joinSlash_getLast_ne_slash (Q : List Str)
    (h : ∀ x ∈ Q, x ≠ [] ∧ '/' ∉ x) (hne : Q ≠ []) :
    ¬(joinSlash Q).getLast? = some '/' := by
  induction Q with
  | nil => exact absurd rfl hne
  | cons q qs ih =>
    rcases qs with _ | ⟨d, ds⟩
    · show ¬(joinSlash [q]).getLast? = some '/'
      obtain ⟨hq1, hq2⟩ := h q (by simp)
      show ¬q.getLast? = some '/'
      intro hlast
      exact hq2 (List.mem_of_mem_getLast? hlast)
    · show ¬(q ++ '/' :: joinSlash (d :: ds)).getLast? = some '/'
      have hjn : joinSlash (d :: ds) ≠ [] := by
        apply joinSlash_ne_nil _ (by simp)
        intro x hx
        exact (h x (by simp [hx])).1
      rw [List.getLast?_append_of_ne_nil q (by simp)]
      have : ('/' :: joinSlash (d :: ds)).getLast? = (joinSlash (d :: ds)).getLast? := by
        have := List.getLast?_append_of_ne_nil ['/'] hjn
        simpa using this
      rw [this]
      exact ih (fun x hx => h x (by simp [hx])) (by simp)

theorem foldl_normStep_clean (ys : List Str) (h : ∀ y ∈ ys, CleanComp y) :
    ∀ acc, List.foldl (normStep false) acc ys = acc ++ ys := by
  induction ys with
  | nil => simp
  | cons y ys ih =>
    intro acc
    obtain ⟨h1, h2, h3⟩ := h y (by simp)
    have hstep : normStep false acc y = acc ++ [y] := by
      unfold normStep
      simp [h1, h2, h3]
    rw [List.foldl_cons, hstep, ih (fun x hx => h x (by simp [hx]))]
    simp

theorem foldl_normStep_good (cs : List Str) :
    ∀ acc, (∀ x ∈ acc, CleanComp x ∧ '/' ∉ x) → (∀ c ∈ cs, '/' ∉ c) →
      ∀ x ∈ List.foldl (normStep false) acc cs, CleanComp x ∧ '/' ∉ x := by
  induction cs with
  | nil => intro acc hacc _ x hx; exact hacc x hx
  | cons c cs ih =>
    intro acc hacc hcs
    apply ih
    · intro x hx
      unfold normStep at hx
      by_cases h1 : c = [] ∨ c = ['.']
      · rw [if_pos h1] at hx
        exact hacc x hx
      · rw [if_neg h1] at hx
        by_cases h2 : c = ['.', '.']
        · rw [if_pos h2] at hx
          by_cases h3 : acc ≠ [] ∧ acc.getLast? ≠ some ['.', '.']
          · rw [if_pos h3] at hx
            exact hacc x (List.dropLast_subset acc hx)
          · rw [if_neg h3] at hx
            simp only [Bool.false_eq_true, if_false] at hx
            exact hacc x hx
        · rw [if_neg h2] at hx
          rcases List.mem_append.mp hx with hx | hx
          · exact hacc x hx
          · have hxc : x = c := by simpa using hx
            subst hxc
            push_neg at h1
            exact ⟨⟨h1.1, h1.2, h2⟩, hcs x (by simp)⟩
    · intro y hy
      exact hcs y (by simp [hy])

theorem normComps_good (cs : List Str) (hcs : ∀ c ∈ cs, '/' ∉ c) :
    ∀ x ∈ normComps false cs, CleanComp x ∧ '/' ∉ x :=
  foldl_normStep_good cs [] (by simp) hcs

/-- Shape of `path.join('/', p)`: always the absolute root, or the root
followed by clean slash-free components, possibly with a trailing
slash. -/
theorem pjoinRoot_shape (q : Str) :
    pjoin2 ['/'] q = ['/'] ∨
    ∃ Q, Q ≠ [] ∧ (∀ x ∈ Q, CleanComp x ∧ '/' ∉ x) ∧
      (pjoin2 ['/'] q = '/' :: joinSlash Q ∨
       pjoin2 ['/'] q = '/' :: (joinSlash Q ++ ['/'])) := by
  rcases hq : q with _ | ⟨c, rest⟩
  · left; decide
  · have hane : ¬((['/'] : Str) = []) := by simp
    have hbne : ¬((c :: rest : Str) = []) := by simp
    unfold pjoin2
    simp only [hane, hbne, if_false]
    have hsplit : splitSlash (['/'] ++ '/' :: (c :: rest)) =
        [] :: [] :: splitSlash (c :: rest) := by
      show splitSlash ('/' :: '/' :: (c :: rest)) = _
      rw [splitSlash_cons_slash, splitSlash_cons_slash]
    have hcomps : normComps false (splitSlash (['/'] ++ '/' :: (c :: rest))) =
        normComps false (splitSlash (c :: rest)) := by
      rw [hsplit]
      unfold normComps
      rw [List.foldl_cons, List.foldl_cons]
      rfl
    have hxne : ¬((['/'] ++ '/' :: (c :: rest) : Str) = []) := by simp
    have habs : (['/'] ++ '/' :: (c :: rest) : Str).head? = some '/' := rfl
    unfold pnormalize
    simp only [hxne, if_false, habs, decide_True, Bool.not_true, if_true]
    rw [hcomps]
    have hQgood := normComps_good (splitSlash (c :: rest)) (splitSlash_no_slash (c :: rest))
    rcases hQnil : normComps false (splitSlash (c :: rest)) with _ | ⟨q0, qs⟩
    · left
      simp [joinSlash]
    · right
      rw [hQnil] at hQgood
      refine ⟨q0 :: qs, by simp, hQgood, ?_⟩
      have hjne : joinSlash (q0 :: qs) ≠ [] :=
        joinSlash_ne_nil _ (by simp) (fun y hy => (hQgood y hy).1.1)
      rw [if_neg hjne]
      by_cases htr : (['/'] ++ '/' :: (c :: rest) : Str).getLast? = some '/'
      · rw [if_pos htr]
        right
        rfl
      · rw [if_neg htr]
        left
        rfl

/-- Joining a clean absolute root with an absolute normalized suffix stays
inside the root. -/
theorem pjoin_root_descends (C : List Str) (hC : ∀ c ∈ C, CleanComp c ∧ '/' ∉ c)
    (hne : C ≠ []) (q : Str)
    (hq : q = ['/'] ∨
      ∃ Q, Q ≠ [] ∧ (∀ x ∈ Q, CleanComp x ∧ '/' ∉ x) ∧
        (q = '/' :: joinSlash Q ∨ q = '/' :: (joinSlash Q ++ ['/']))) :
    Descends (rootOf C) (pjoin2 (rootOf C) q) := by
  have hCcomp : ∀ c ∈ C, c ≠ [] := fun c hc => (hC c hc).1.1
  have hCslash : ∀ c ∈ C, '/' ∉ c := fun c hc => (hC c hc).2
  have hrne : ¬(rootOf C = []) := by simp [rootOf]
  have hsplitroot : splitSlash (rootOf C) = [] :: C := by
    unfold rootOf
    rw [splitSlash_cons_slash, splitSlash_joinSlash C hne hCslash]
  have hjCne : joinSlash C ≠ [] := joinSlash_ne_nil C hne hCcomp
  have hfoldC : ∀ t : List Str, List.foldl (normStep false) [] ([] :: C ++ t) =
      List.foldl (normStep false) C t := by
    intro t
    rw [show (([] : Str) :: C ++ t : List Str) = [] :: (C ++ t) by simp, List.foldl_cons,
      show normStep false [] [] = [] from rfl, List.foldl_append,
      foldl_normStep_clean C (fun c hc => (hC c hc).1) []]
    simp
  rcases hq with hq | ⟨Q, hQne, hQgood, hq⟩
  · -- q = "/"
    subst hq
    have hqne : ¬((['/'] : Str) = []) := by simp
    unfold pjoin2
    simp only [hrne, hqne, if_false]
    have hxne : ¬((rootOf C ++ '/' :: ['/'] : Str) = []) := by simp [rootOf]
    have habs : (rootOf C ++ '/' :: ['/'] : Str).head? = some '/' := by simp [rootOf]
    have hsplit : splitSlash (rootOf C ++ '/' :: ['/']) = [] :: C ++ [[], []] := by
      rw [splitSlash_append, hsplitroot]
      rfl
    have hcomps : normComps false (splitSlash (rootOf C ++ '/' :: ['/'])) = C := by
      rw [hsplit]
      unfold normComps
      rw [hfoldC]
      simp [normStep]
    have htrail : (rootOf C ++ '/' :: ['/'] : Str).getLast? = some '/' := by
      rw [List.getLast?_append_of_ne_nil _ (by simp)]
      rfl
    unfold pnormalize
    simp only [hxne, if_false, habs, decide_True, Bool.not_true, if_true]
    rw [hcomps, if_neg hjCne, if_pos htrail]
    right
    exact ⟨[], by simp [rootOf]⟩
  · have hjQne : joinSlash Q ≠ [] :=
      joinSlash_ne_nil Q hQne (fun y hy => (hQgood y hy).1.1)
    have hQslash : ∀ y ∈ Q, '/' ∉ y := fun y hy => (hQgood y hy).2
    have hQclean : ∀ y ∈ Q, CleanComp y := fun y hy => (hQgood y hy).1
    have hjCQne : joinSlash (C ++ Q) ≠ [] := by
      apply joinSlash_ne_nil _ (by simp [hne])
      intro y hy
      rcases List.mem_append.mp hy with hy | hy
      · exact hCcomp y hy
      · exact (hQgood y hy).1.1
    rcases hq with hq | hq
    · -- q = '/' :: joinSlash Q
      subst hq
      have hqne : ¬(('/' :: joinSlash Q : Str) = []) := by simp
      unfold pjoin2
      simp only [hrne, hqne, if_false]
      have hxne : ¬((rootOf C ++ '/' :: ('/' :: joinSlash Q) : Str) = []) := by
        simp [rootOf]
      have habs : (rootOf C ++ '/' :: ('/' :: joinSlash Q) : Str).head? = some '/' := by
        simp [rootOf]
      have hsplit : splitSlash (rootOf C ++ '/' :: ('/' :: joinSlash Q)) =
          [] :: C ++ [] :: Q := by
        rw [splitSlash_append, hsplitroot, splitSlash_cons_slash,
          splitSlash_joinSlash Q hQne hQslash]
      have hcomps : normComps false (splitSlash (rootOf C ++ '/' :: ('/' :: joinSlash Q))) =
          C ++ Q := by
        rw [hsplit]
        unfold normComps
        rw [hfoldC, List.foldl_cons, show normStep false C [] = C by simp [normStep],
          foldl_normStep_clean Q hQclean C]
      have htrail : ¬((rootOf C ++ '/' :: ('/' :: joinSlash Q) : Str).getLast? = some '/') := by
        rw [List.getLast?_append_of_ne_nil _ (by simp)]
        have h2 : ('/' :: ('/' :: joinSlash Q) : Str).getLast? = (joinSlash Q).getLast? := by
          have h3 := List.getLast?_append_of_ne_nil ['/', '/'] hjQne
          simpa using h3
        rw [h2]
        exact joinSlash_getLast_ne_slash Q
          (fun y hy => ⟨(hQgood y hy).1.1, (hQgood y hy).2⟩) hQne
      unfold pnormalize
      simp only [hxne, if_false, habs, decide_True, Bool.not_true, if_true]
      rw [hcomps, if_neg hjCQne, if_neg htrail, joinSlash_append C Q hne hQne]
      right
      exact ⟨joinSlash Q, by simp [rootOf]⟩
    · -- q = '/' :: (joinSlash Q ++ ['/'])
      subst hq
      have hqne : ¬(('/' :: (joinSlash Q ++ ['/']) : Str) = []) := by simp
      unfold pjoin2
      simp only [hrne, hqne, if_false]
      have hxne : ¬((rootOf C ++ '/' :: ('/' :: (joinSlash Q ++ ['/'])) : Str) = []) := by
        simp [rootOf]
      have habs : (rootOf C ++ '/' :: ('/' :: (joinSlash Q ++ ['/'])) : Str).head? =
          some '/' := by
        simp [rootOf]
      have hsplit : splitSlash (rootOf C ++ '/' :: ('/' :: (joinSlash Q ++ ['/']))) =
          [] :: C ++ [] :: (Q ++ [[]]) := by
        rw [splitSlash_append, hsplitroot, splitSlash_cons_slash]
        congr 2
        rw [show (joinSlash Q ++ ['/'] : Str) = joinSlash Q ++ '/' :: [] by simp,
          splitSlash_append, splitSlash_joinSlash Q hQne hQslash]
        rfl
      have hcomps :
          normComps false (splitSlash (rootOf C ++ '/' :: ('/' :: (joinSlash Q ++ ['/'])))) =
          C ++ Q := by
        rw [hsplit]
        unfold normComps
        rw [hfoldC, List.foldl_cons, show normStep false C [] = C by simp [normStep],
          List.foldl_append, foldl_normStep_clean Q hQclean C]
        simp [normStep]
      have htrail : (rootOf C ++ '/' :: ('/' :: (joinSlash Q ++ ['/'])) : Str).getLast? =
          some '/' := by
        rw [List.getLast?_append_of_ne_nil _ (by simp)]
        have h3 := @List.getLast?_append_of_ne_nil Char
          ('/' :: '/' :: joinSlash Q : Str) ['/'] (by simp)
        simpa using h3
      unfold pnormalize
      simp only [hxne, if_false, habs, decide_True, Bool.not_true, if_true]
      rw [hcomps, if_neg hjCQne, if_pos htrail, joinSlash_append C Q hne hQne]
      right
      refine ⟨joinSlash Q ++ ['/'], ?_⟩
      simp [rootOf]

/-! ## Claim C2 -/

/-- Claim C2: with a clean absolute target directory, the extractor's
resolved target path — drop the first `strip` components, then
`join(cwd, join('/', path))` — is always the target directory itself or
strictly below it: no `..` sequence or absolute entry path escapes. -/
theorem c2_fixpath_descends (C : List Str) (hC : ∀ c ∈ C, CleanComp c ∧ '/' ∉ c)
    (hne : C ≠ []) (strip : Nat) (p : Str)
    (_hstrip : strip ≤ (splitSlash p).length) :
    Descends (rootOf C) (fixPath (rootOf C) strip p) := by
  unfold fixPath
  exact pjoin_root_descends C hC hne _ (pjoinRoot_shape _)

/-- Witness for C2: extracting `../evil` into `/tmp/x` resolves to
`/tmp/x/evil`, inside the target. -/
theorem c2_fixpath_descends_witness :
    (∀ c ∈ [['t', 'm', 'p'], ['x']], CleanComp c ∧ '/' ∉ c) ∧
    ([['t', 'm', 'p'], ['x']] : List Str) ≠ [] ∧
    (0 : Nat) ≤ (splitSlash ['.', '.', '/', 'e', 'v', 'i', 'l']).length ∧
    Descends (rootOf [['t', 'm', 'p'], ['x']])
      (fixPath (rootOf [['t', 'm', 'p'], ['x']]) 0 ['.', '.', '/', 'e', 'v', 'i', 'l']) := by
  refine ⟨by decide, by decide, by decide, ?_⟩
  exact c2_fixpath_descends [['t', 'm', 'p'], ['x']] (by decide) (by decide) 0
    ['.', '.', '/', 'e', 'v', 'i', 'l'] (by decide)

/-! ## Claim C9 (counterexample half) -/

/-- Claim C9 (counterexample): with the defaults, the extractor does not
skip the entry `../evil` and issues no warning — its File handler
unconditionally creates a file at the fixed-up path.  (The path fix
clamps `..` at the root, so the file lands inside the target directory:
`/tmp/x/evil`.) -/
theorem c9_counterexample :
    onEntry ('/' :: 't' :: 'm' :: 'p' :: '/' :: 'x' :: []) 0
        { type := .file, path := ['.', '.', '/', 'e', 'v', 'i', 'l'], linkpath := [] } =
      .createFile ('/' :: 't' :: 'm' :: 'p' :: '/' :: 'x' :: '/' :: 'e' :: 'v' :: 'i' :: 'l' :: []) := by
  decide

/-- Claim C9 (amended): with the defaults, extracting an entry whose path
contains `..` creates no file outside the target directory: the entry is
not skipped and no warning is issued — the File handler creates exactly
one file, at the `..`-clamped fixed-up path, which lies inside the target
directory. -/
theorem c9_amended (C : List Str) (hC : ∀ c ∈ C, CleanComp c ∧ '/' ∉ c)
    (hne : C ≠ []) (strip : Nat) (e : UEntry) (hty : e.type = EType.file) :
    onEntry (rootOf C) strip e = .createFile (fixPath (rootOf C) strip e.path) ∧
    Descends (rootOf C) (fixPath (rootOf C) strip e.path) := by
  constructor
  · unfold onEntry
    rw [hty]
  · unfold fixPath
    exact pjoin_root_descends C hC hne _ (pjoinRoot_shape _)

/-- Witness for C9 (amended) at the spec's S5 scenario. -/
theorem c9_amended_witness :
    (∀ c ∈ [['t', 'm', 'p'], ['x']], CleanComp c ∧ '/' ∉ c) ∧
    ([['t', 'm', 'p'], ['x']] : List Str) ≠ [] ∧
    (onEntry (rootOf [['t', 'm', 'p'], ['x']]) 0
        { type := .file, path := ['.', '.', '/', 'e', 'v', 'i', 'l'], linkpath := [] } =
      .createFile (fixPath (rootOf [['t', 'm', 'p'], ['x']]) 0
        ['.', '.', '/', 'e', 'v', 'i', 'l']) ∧
     Descends (rootOf [['t', 'm', 'p'], ['x']])
      (fixPath (rootOf [['t', 'm', 'p'], ['x']]) 0 ['.', '.', '/', 'e', 'v', 'i', 'l'])) := by
  refine ⟨by decide, by decide, ?_⟩
  exact c9_amended [['t', 'm', 'p'], ['x']] (by decide) (by decide) 0
    { type := .file, path := ['.', '.', '/', 'e', 'v', 'i', 'l'], linkpath := [] } rfl

/-! ## Claim C1: counterexample -/

/-- Claim C1 (counterexample): the same complete 1536-byte archive
(`exS` = one File header of size 1024 plus its two body blocks), fed
once as a single chunk versus fed as the partition 1112 + 424 bytes,
produces different per-entry body bytes: the single write forwards all
1024 body bytes and ends the entry, while the split write forwards only
600 bytes and never ends it — the final 436 bytes sit in the sub-512
buffer and the loop's 512-byte gate never consumes them. -/
theorem c1_counterexample :
    exS.take 1112 ++ exS.drop 1112 = exS ∧
    ((runWrites fltT (initParser maxMetaEntrySize) [exS]).core.entries.map
        (fun r => (r.body.length, r.ended))) = [(1024, true)] ∧
    ((runWrites fltT (initParser maxMetaEntrySize)
        [exS.take 1112, exS.drop 1112]).core.entries.map
        (fun r => (r.body.length, r.ended))) = [(600, false)] := by
  exact ⟨List.take_append_drop 1112 exS, by decide, by decide⟩

/-! ## Claim C1: composition machinery for 512-aligned chunking -/

theorem recWrite_comp (rs : List EntryRec) (idx : Option Nat) (d1 d2 : Bytes)
    (e1 e2 : Bool) :
    recWrite (recWrite rs idx d1 e1) idx d2 e2 = recWrite rs idx (d1 ++ d2) (e1 || e2) := by
  rcases idx with _ | i
  · rfl
  · rcases h : rs[i]? with _ | r
    · simp only [recWrite, h]
    · have hb : i < rs.length := (List.getElem?_eq_some.mp h).1
      have hset : (rs.set i { r with body := r.body ++ d1, ended := r.ended || e1 })[i]? =
          some { r with body := r.body ++ d1, ended := r.ended || e1 } :=
        List.getElem?_set_self (by simpa using hb)
      simp only [recWrite, h, hset, List.set_set]
      rw [List.append_assoc, Bool.or_assoc]

theorem bodyStep_split (remain bR : Nat) (A B : Bytes)
    (_hrb : remain ≤ bR) (hA : A.length < bR) :
    (bodyStep remain bR A).finished = false ∧
    (bodyStep remain bR A).leftover = [] ∧
    (bodyStep remain bR (A ++ B)).dataOut =
      (bodyStep remain bR A).dataOut ++
        (bodyStep (bodyStep remain bR A).remainAfter
          (bodyStep remain bR A).blockRemainAfter B).dataOut ∧
    (bodyStep remain bR (A ++ B)).endCalled =
      ((bodyStep remain bR A).endCalled ||
        (bodyStep (bodyStep remain bR A).remainAfter
          (bodyStep remain bR A).blockRemainAfter B).endCalled) ∧
    (bodyStep remain bR (A ++ B)).finished =
      (bodyStep (bodyStep remain bR A).remainAfter
        (bodyStep remain bR A).blockRemainAfter B).finished ∧
    (bodyStep remain bR (A ++ B)).leftover =
      (bodyStep (bodyStep remain bR A).remainAfter
        (bodyStep remain bR A).blockRemainAfter B).leftover ∧
    ((bodyStep remain bR (A ++ B)).finished = false →
      (bodyStep remain bR (A ++ B)).remainAfter =
        (bodyStep (bodyStep remain bR A).remainAfter
          (bodyStep remain bR A).blockRemainAfter B).remainAfter ∧
      (bodyStep remain bR (A ++ B)).blockRemainAfter =
        (bodyStep (bodyStep remain bR A).remainAfter
          (bodyStep remain bR A).blockRemainAfter B).blockRemainAfter) := by
  have hlen : (A ++ B).length = A.length + B.length := by simp
  rcases Nat.lt_or_ge A.length remain with h1 | h1
  · -- A-step is case 1
    have hstepA : bodyStep remain bR A =
        { dataOut := A, endCalled := false, finished := false,
          remainAfter := remain - A.length, blockRemainAfter := bR - A.length,
          leftover := [] } := by
      simp [bodyStep, h1]
    rw [hstepA]
    refine ⟨rfl, rfl, ?_⟩
    rcases Nat.lt_or_ge (A.length + B.length) remain with h2 | h2
    · -- combined still case 1
      have hB : B.length < remain - A.length := by omega
      simp [bodyStep, h2, hlen, hB]
      omega
    · rcases Nat.lt_or_ge (A.length + B.length) bR with h3 | h3
      · -- combined case 2
        have hBn : ¬(B.length < remain - A.length) := by omega
        have hB3 : B.length < bR - A.length := by omega
        simp [bodyStep, Nat.not_lt.mpr h2, h3, hlen, hBn, hB3]
        constructor
        · rw [List.take_append_eq_append_take, List.take_of_length_le (by omega)]
        · omega
      · -- combined case 3
        have hBn : ¬(B.length < remain - A.length) := by omega
        have hB3 : ¬(B.length < bR - A.length) := by omega
        simp [bodyStep, Nat.not_lt.mpr h2, Nat.not_lt.mpr h3, hlen, hBn, hB3]
        constructor
        · rw [List.take_append_eq_append_take, List.take_of_length_le (by omega)]
        · rw [List.drop_append_eq_append_drop,
            List.drop_eq_nil_of_le (by omega : A.length ≤ bR)]
          simp
  · -- A-step is case 2 (remain ≤ |A| < bR)
    have hstepA : bodyStep remain bR A =
        { dataOut := A.take remain, endCalled := true, finished := false,
          remainAfter := 0, blockRemainAfter := bR - A.length, leftover := [] } := by
      simp [bodyStep, Nat.not_lt.mpr h1, hA]
    rw [hstepA]
    refine ⟨rfl, rfl, ?_⟩
    have htake : (A ++ B).take remain = A.take remain := by
      rw [List.take_append_eq_append_take, show remain - A.length = 0 by omega]
      simp
    have h2 : ¬((A ++ B).length < remain) := by rw [hlen]; omega
    rcases Nat.lt_or_ge B.length (bR - A.length) with h3 | h3
    · -- combined still in the middle of the block
      have hc : (A ++ B).length < bR := by rw [hlen]; omega
      have hstepAB : bodyStep remain bR (A ++ B) =
          { dataOut := (A ++ B).take remain, endCalled := true, finished := false,
            remainAfter := 0, blockRemainAfter := bR - (A ++ B).length,
            leftover := [] } := by
        simp [bodyStep, show ¬(A.length + B.length < remain) from by omega,
          show A.length + B.length < bR from by omega]
      have hstepB : bodyStep 0 (bR - A.length) B =
          { dataOut := B.take 0, endCalled := true, finished := false,
            remainAfter := 0, blockRemainAfter := (bR - A.length) - B.length,
            leftover := [] } := by
        simp [bodyStep, h3]
      rw [hstepAB, hstepB]
      refine ⟨by simp [htake], rfl, rfl, rfl, ?_⟩
      intro
      refine ⟨rfl, ?_⟩
      show bR - (A ++ B).length = (bR - A.length) - B.length
      rw [hlen]; omega
    · -- combined finishes the block
      have hc : ¬((A ++ B).length < bR) := by rw [hlen]; omega
      have hstepAB : bodyStep remain bR (A ++ B) =
          { dataOut := (A ++ B).take remain, endCalled := true, finished := true,
            remainAfter := remain, blockRemainAfter := bR,
            leftover := (A ++ B).drop bR } := by
        simp [bodyStep, show ¬(A.length + B.length < remain) from by omega,
          show ¬(A.length + B.length < bR) from by omega]
      have hstepB : bodyStep 0 (bR - A.length) B =
          { dataOut := B.take 0, endCalled := true, finished := true,
            remainAfter := 0, blockRemainAfter := bR - A.length,
            leftover := B.drop (bR - A.length) } := by
        simp [bodyStep, Nat.not_lt.mpr h3]
      rw [hstepAB, hstepB]
      refine ⟨by simp [htake], rfl, rfl, ?_, ?_⟩
      · show (A ++ B).drop bR = B.drop (bR - A.length)
        rw [List.drop_append_eq_append_drop,
          List.drop_eq_nil_of_le (by omega : A.length ≤ bR)]
        simp
      · intro hfin
        simp at hfin


theorem bodyStep_unfinished (remain bR : Nat) (A : Bytes) (hA : A.length < bR) :
    (bodyStep remain bR A).finished = false ∧
    (bodyStep remain bR A).blockRemainAfter = bR - A.length ∧
    (bodyStep remain bR A).remainAfter ≤ remain ∧
    (remain ≤ bR → (bodyStep remain bR A).remainAfter ≤ (bodyStep remain bR A).blockRemainAfter) := by
  rcases Nat.lt_or_ge A.length remain with h1 | h1
  · have hstepA : bodyStep remain bR A =
        { dataOut := A, endCalled := false, finished := false,
          remainAfter := remain - A.length, blockRemainAfter := bR - A.length,
          leftover := [] } := by
      simp [bodyStep, h1]
    rw [hstepA]
    exact ⟨rfl, rfl, Nat.sub_le remain A.length,
      fun h => Nat.sub_le_sub_right h A.length⟩
  · have hstepA : bodyStep remain bR A =
        { dataOut := A.take remain, endCalled := true, finished := false,
          remainAfter := 0, blockRemainAfter := bR - A.length, leftover := [] } := by
      simp [bodyStep, Nat.not_lt.mpr h1, hA]
    rw [hstepA]
    exact ⟨rfl, rfl, Nat.zero_le remain, fun _ => Nat.zero_le (bR - A.length)⟩

theorem bodyStep_finished_iff (remain bR : Nat) (c : Bytes) (hrb : remain ≤ bR) :
    (bodyStep remain bR c).finished = true ↔ bR ≤ c.length := by
  constructor
  · intro h
    by_contra hcon
    have := (bodyStep_unfinished remain bR c (by omega)).1
    rw [h] at this
    cases this
  · intro h
    simp [bodyStep, Nat.not_lt.mpr (le_trans hrb h), Nat.not_lt.mpr h]

theorem consumeEntryBody_eq_of_unfinished (k : Core) (e : WEntry) (c : Bytes)
    (hw : k.wentry = some e) (hc : c.length < e.blockRemain) :
    consumeEntryBody k c =
      ({ k with
          entries := recWrite k.entries e.idx (bodyStep e.remain e.blockRemain c).dataOut
            (bodyStep e.remain e.blockRemain c).endCalled,
          wentry := some { e with
            remain := (bodyStep e.remain e.blockRemain c).remainAfter,
            blockRemain := (bodyStep e.remain e.blockRemain c).blockRemainAfter } }, none) := by
  have hf := (bodyStep_unfinished e.remain e.blockRemain c hc).1
  simp only [consumeEntryBody, hw, hf, Bool.false_eq_true, if_false]

theorem consumeEntryBody_eq_of_finished (k : Core) (e : WEntry) (c : Bytes)
    (hw : k.wentry = some e) (hrb : e.remain ≤ e.blockRemain)
    (hc : e.blockRemain ≤ c.length) :
    consumeEntryBody k c =
      ({ k with
          entries := recWrite k.entries e.idx (bodyStep e.remain e.blockRemain c).dataOut
            (bodyStep e.remain e.blockRemain c).endCalled,
          state := .begin, wentry := none },
        some (bodyStep e.remain e.blockRemain c).leftover) := by
  have hf := (bodyStep_finished_iff e.remain e.blockRemain c hrb).mpr hc
  simp only [consumeEntryBody, hw, hf, if_true]

theorem consumeEntryBody_comp (k : Core) (e : WEntry) (A B : Bytes)
    (hw : k.wentry = some e) (hrb : e.remain ≤ e.blockRemain)
    (hA : A.length < e.blockRemain) :
    consumeEntryBody k (A ++ B) = consumeEntryBody (consumeEntryBody k A).1 B := by
  obtain ⟨hsA, hsL, hsD, hsE, hsF, hsLeft, hsRest⟩ :=
    bodyStep_split e.remain e.blockRemain A B hrb hA
  obtain ⟨_, hbrA, _, hramono⟩ := bodyStep_unfinished e.remain e.blockRemain A hA
  have hrb1 : (bodyStep e.remain e.blockRemain A).remainAfter ≤
      (bodyStep e.remain e.blockRemain A).blockRemainAfter := hramono hrb
  rw [consumeEntryBody_eq_of_unfinished k e A hw hA]
  rcases hfin : (bodyStep (bodyStep e.remain e.blockRemain A).remainAfter
      (bodyStep e.remain e.blockRemain A).blockRemainAfter B).finished with _ | _
  · -- the B step does not finish the block
    have hBlen : B.length < (bodyStep e.remain e.blockRemain A).blockRemainAfter := by
      by_contra hcon
      rw [(bodyStep_finished_iff _ _ B hrb1).mpr (by omega)] at hfin
      cases hfin
    have hABlen : (A ++ B).length < e.blockRemain := by
      by_contra hcon
      have hfin2 := (bodyStep_finished_iff e.remain e.blockRemain (A ++ B) hrb).mpr (by omega)
      rw [hsF] at hfin2
      rw [hfin] at hfin2
      cases hfin2
    rw [consumeEntryBody_eq_of_unfinished _ _ (A ++ B) hw hABlen,
      consumeEntryBody_eq_of_unfinished _ _ B (by rfl) hBlen]
    obtain ⟨hra, hbra⟩ := hsRest (by rw [hsF]; exact hfin)
    rw [recWrite_comp]
    simp only [Prod.mk.injEq]
    refine ⟨?_, trivial⟩
    rw [Core.mk.injEq]
    refine ⟨rfl, ?_, rfl, rfl, rfl, ?_, rfl, rfl⟩
    · rw [Option.some.injEq, WEntry.mk.injEq]
      exact ⟨rfl, hra, hbra, rfl, rfl⟩
    · rw [hsD, hsE]
  · -- the B step finishes the block
    have hBlen : (bodyStep e.remain e.blockRemain A).blockRemainAfter ≤ B.length :=
      (bodyStep_finished_iff _ _ B hrb1).mp hfin
    have hABlen : e.blockRemain ≤ (A ++ B).length := by
      rw [hbrA] at hBlen
      simp only [List.length_append]
      omega
    rw [consumeEntryBody_eq_of_finished _ _ (A ++ B) hw hrb hABlen,
      consumeEntryBody_eq_of_finished _ _ B (by rfl) hrb1 hBlen]
    rw [recWrite_comp]
    simp only [Prod.mk.injEq]
    constructor
    · rw [Core.mk.injEq]
      refine ⟨rfl, rfl, rfl, rfl, rfl, ?_, rfl, rfl⟩
      rw [hsD, hsE]
    · rw [Option.some.injEq]
      exact hsLeft


/-! ## Observational-equality toolkit -/

theorem obsEq_refl (k : Core) : obsEq k k :=
  ⟨rfl, rfl, rfl, rfl, rfl, rfl, rfl, fun _ => rfl⟩

theorem obsEq_symm (a b : Core) (h : obsEq a b) : obsEq b a := by
  obtain ⟨s, m, e, g, n, i, x, w⟩ := h
  exact ⟨s.symm, m.symm, e.symm, g.symm, n.symm, i.symm, x.symm,
    fun hb => (w (fun ha => hb (s ▸ ha))).symm⟩

theorem obsEq_trans (a b c : Core) (h1 : obsEq a b) (h2 : obsEq b c) : obsEq a c := by
  obtain ⟨s1, m1, e1, g1, n1, i1, x1, w1⟩ := h1
  obtain ⟨s2, m2, e2, g2, n2, i2, x2, w2⟩ := h2
  exact ⟨s1.trans s2, m1.trans m2, e1.trans e2, g1.trans g2, n1.trans n2,
    i1.trans i2, x1.trans x2, fun h => (w1 h).trans (w2 (s1 ▸ h))⟩

theorem obsEq_eq (k j : Core) (h : obsEq k j) (hs : k.state ≠ .begin) : k = j := by
  obtain ⟨s, m, e, g, n, i, x, w⟩ := h
  have hw := w hs
  cases k
  cases j
  rw [Core.mk.injEq]
  exact ⟨s, hw, m, e, g, n, i, x⟩

theorem alignedCore_begin (k : Core) (h : k.state = .begin) : alignedCore k := by
  constructor
  · intro hc
    rcases hc with hc | hc <;> rw [h] at hc <;> cases hc
  · intro hc
    rw [h] at hc
    cases hc

theorem alignedCore_crashed (k : Core) (t : CrashTag) (h : k.state = .crashed t) :
    alignedCore k := by
  constructor
  · intro hc
    rcases hc with hc | hc <;> rw [h] at hc <;> cases hc
  · intro hc
    rw [h] at hc
    cases hc

theorem bodyStep_eq_of_finished (remain bR : Nat) (c : Bytes)
    (hrb : remain ≤ bR) (hc : bR ≤ c.length) :
    bodyStep remain bR c =
      { dataOut := c.take remain, endCalled := true, finished := true,
        remainAfter := remain, blockRemainAfter := bR, leftover := c.drop bR } := by
  simp [bodyStep, Nat.not_lt.mpr (le_trans hrb hc), Nat.not_lt.mpr hc]

/-! ## One-branch unfoldings of the consume loop -/

theorem loopP_small (flt : EntryInfo → Bool) (k : Core) (c : Bytes)
    (h : c.length < 512) : loopP flt k c = (k, c) := by
  rw [loopP_eq, if_pos h]

theorem loopP_crashed (flt : EntryInfo → Bool) (k : Core) (c : Bytes) (t : CrashTag)
    (hst : k.state = .crashed t) (hc : ¬c.length < 512) : loopP flt k c = (k, []) := by
  rw [loopP_eq, if_neg hc, hst]

theorem loopP_begin (flt : EntryInfo → Bool) (k : Core) (c : Bytes)
    (hst : k.state = .begin) (hc : ¬c.length < 512) :
    loopP flt k c = loopP flt (consumeHeader flt k (c.take 512)) (c.drop 512) := by
  rw [loopP_eq, if_neg hc, hst]

theorem loopP_body_none (flt : EntryInfo → Bool) (k : Core) (c : Bytes) (k1 : Core)
    (hst : k.state = .body) (hc : ¬c.length < 512)
    (hb : consumeEntryBody k c = (k1, none)) : loopP flt k c = (k1, []) := by
  rw [loopP_eq, if_neg hc, hst, hb]

theorem loopP_body_some (flt : EntryInfo → Bool) (k : Core) (c : Bytes) (k1 : Core)
    (r : Bytes) (hst : k.state = .body) (hc : ¬c.length < 512)
    (hb : consumeEntryBody k c = (k1, some r)) : loopP flt k c = loopP flt k1 r := by
  rw [loopP_eq, if_neg hc, hst, hb]

theorem loopP_meta_none (flt : EntryInfo → Bool) (k : Core) (c : Bytes) (k1 : Core)
    (hst : k.state = .meta) (hc : ¬c.length < 512)
    (hb : consumeMeta k c = (k1, none)) : loopP flt k c = (k1, []) := by
  rw [loopP_eq, if_neg hc, hst, hb]

theorem loopP_meta_some (flt : EntryInfo → Bool) (k : Core) (c : Bytes) (k1 : Core)
    (r : Bytes) (hst : k.state = .meta) (hc : ¬c.length < 512)
    (hb : consumeMeta k c = (k1, some r)) : loopP flt k c = loopP flt k1 r := by
  rw [loopP_eq, if_neg hc, hst, hb]

theorem loopP_ignore_none (flt : EntryInfo → Bool) (k : Core) (c : Bytes) (k1 : Core)
    (hst : k.state = .ignore) (hc : ¬c.length < 512)
    (hb : consumeIgnoreBody k c = (k1, none)) : loopP flt k c = (k1, []) := by
  rw [loopP_eq, if_neg hc, hst, hb]

theorem loopP_ignore_some (flt : EntryInfo → Bool) (k : Core) (c : Bytes) (k1 : Core)
    (r : Bytes) (hst : k.state = .ignore) (hc : ¬c.length < 512)
    (hb : consumeIgnoreBody k c = (k1, some r)) : loopP flt k c = loopP flt k1 r := by
  rw [loopP_eq, if_neg hc, hst, hb]

theorem loopP_nil (flt : EntryInfo → Bool) (k : Core) : loopP flt k [] = (k, []) :=
  loopP_small flt k [] (by simp)


/-! ## `consumeHeader`: observational congruence in the stale entry, and
preservation of the alignment invariant -/

theorem consumeHeader_obs (flt : EntryInfo → Bool) (k : Core) (w : Option WEntry)
    (b : Bytes) (hs : k.state = .begin) :
    obsEq (consumeHeader flt { k with wentry := w } b) (consumeHeader flt k b) := by
  by_cases hv : (decodeHeader b).cksumValid = true
  · simp only [consumeHeader, hv, Bool.not_true, Bool.false_eq_true, if_false]
    exact obsEq_refl _
  · have hv' : (decodeHeader b).cksumValid = false := by
      revert hv; cases (decodeHeader b).cksumValid <;> simp
    simp only [consumeHeader, hv', Bool.not_false, if_true]
    exact ⟨rfl, rfl, rfl, rfl, rfl, rfl, rfl, fun hcon => absurd hs hcon⟩

theorem consumeHeader_aligned (flt : EntryInfo → Bool) (k : Core) (b : Bytes)
    (hs : k.state = .begin) : alignedCore (consumeHeader flt k b) := by
  have hsize : (decodeHeader b).size ≤ 512 * (((decodeHeader b).size + 511) / 512) := by
    omega
  by_cases hv : (decodeHeader b).cksumValid = true
  · by_cases hm : (newEntryInfo k (decodeHeader b)).meta = true
    · by_cases hsz : k.maxMeta < (decodeHeader b).size
      · simp [consumeHeader, hv, hm, hsz]
        exact alignedCore_crashed _ .refErrorIgnore rfl
      · simp [consumeHeader, hv, hm, hsz]
        exact ⟨fun _ => ⟨_, rfl, ⟨_, rfl⟩, hsize⟩, fun hc => nomatch hc⟩
    · by_cases hign : ((newEntryInfo k (decodeHeader b)).unknownType ||
          !flt (newEntryInfo k (decodeHeader b))) = true
      · by_cases hre : (decodeHeader b).size = 0
        · simp [consumeHeader, hv, hm, hign, hre]
          exact alignedCore_begin _ rfl
        · simp [consumeHeader, hv, hm, hign, hre]
          exact ⟨fun hc => hc.elim (fun h => nomatch h) (fun h => nomatch h),
            fun _ => ⟨_, rfl, ⟨_, rfl⟩⟩⟩
      · by_cases hre : (decodeHeader b).size = 0
        · simp [consumeHeader, hv, hm, hign, hre]
          exact alignedCore_begin _ rfl
        · simp [consumeHeader, hv, hm, hign, hre]
          exact ⟨fun _ => ⟨_, rfl, ⟨_, rfl⟩, hsize⟩, fun hc => nomatch hc⟩
  · have hv' : (decodeHeader b).cksumValid = false := by
      revert hv; cases (decodeHeader b).cksumValid <;> simp
    simp [consumeHeader, hv']
    exact alignedCore_begin _ hs


/-- Cores that agree observationally run the consume loop to
observationally equal cores with identical remainders: when the state is
not `begin` the cores are in fact equal, and in `begin` the header step
never reads the stale entry. -/
theorem loopGo_cong (flt : EntryInfo → Bool) :
    ∀ (fuel : Nat) (k j : Core) (c : Bytes), obsEq k j →
      obsEq (loopGo flt fuel k c).1 (loopGo flt fuel j c).1 ∧
      (loopGo flt fuel k c).2 = (loopGo flt fuel j c).2 := by
  intro fuel
  induction fuel with
  | zero => intro k j c h; exact ⟨h, rfl⟩
  | succ f ih =>
    intro k j c h
    by_cases hs : k.state = PState.begin
    · have hs' : j.state = PState.begin := h.1 ▸ hs
      have hk : k = { j with wentry := k.wentry } := by
        obtain ⟨s, m, e, g, n, i, x, _⟩ := h
        cases k; cases j
        rw [Core.mk.injEq]
        exact ⟨s, rfl, m, e, g, n, i, x⟩
      unfold loopGo
      by_cases hlen : c.length < 512
      · simp only [if_pos hlen]
        exact ⟨h, trivial⟩
      · simp only [if_neg hlen]
        rw [hs, hs']
        exact ih _ _ _ (hk ▸ consumeHeader_obs flt j k.wentry (c.take 512) hs')
    · have heq := obsEq_eq k j h hs
      subst heq
      exact ⟨obsEq_refl _, rfl⟩

theorem loopP_cong (flt : EntryInfo → Bool) (k j : Core) (c : Bytes) (h : obsEq k j) :
    obsEq (loopP flt k c).1 (loopP flt j c).1 ∧ (loopP flt k c).2 = (loopP flt j c).2 :=
  loopGo_cong flt (2 * c.length + 2) k j c h


/-! ## `consumeMeta` and `consumeIgnoreBody`: branch equations and
composition under a split chunk -/

theorem consumeMeta_eq_of_unfinished (k : Core) (e : WEntry) (c : Bytes)
    (hw : k.wentry = some e) (hc : c.length < e.blockRemain) :
    consumeMeta k c =
      ({ k with
          metaAcc := k.metaAcc ++ (bodyStep e.remain e.blockRemain c).dataOut,
          wentry := some { e with
            remain := (bodyStep e.remain e.blockRemain c).remainAfter,
            blockRemain := (bodyStep e.remain e.blockRemain c).blockRemainAfter } }, none) := by
  have hf := (bodyStep_unfinished e.remain e.blockRemain c hc).1
  simp only [consumeMeta, hw, hf, Bool.false_eq_true, if_false]

theorem consumeMeta_eq_of_finished (k : Core) (e : WEntry) (c : Bytes)
    (hw : k.wentry = some e) (hrb : e.remain ≤ e.blockRemain)
    (hc : e.blockRemain ≤ c.length) :
    consumeMeta k c =
      (metaDispatch
        { k with
            metaAcc := k.metaAcc ++ (bodyStep e.remain e.blockRemain c).dataOut,
            state := .begin, wentry := none,
            sigs := k.sigs ++
              [.metaText (k.metaAcc ++ (bodyStep e.remain e.blockRemain c).dataOut)] }
        e.info.typeKey,
       some (bodyStep e.remain e.blockRemain c).leftover) := by
  have hf := (bodyStep_finished_iff e.remain e.blockRemain c hrb).mpr hc
  simp only [consumeMeta, hw, hf, if_true]

theorem consumeMeta_comp (k : Core) (e : WEntry) (A B : Bytes)
    (hw : k.wentry = some e) (hrb : e.remain ≤ e.blockRemain)
    (hA : A.length < e.blockRemain) :
    consumeMeta k (A ++ B) = consumeMeta (consumeMeta k A).1 B := by
  obtain ⟨hsA, hsL, hsD, hsE, hsF, hsLeft, hsRest⟩ :=
    bodyStep_split e.remain e.blockRemain A B hrb hA
  obtain ⟨_, hbrA, _, hramono⟩ := bodyStep_unfinished e.remain e.blockRemain A hA
  have hrb1 : (bodyStep e.remain e.blockRemain A).remainAfter ≤
      (bodyStep e.remain e.blockRemain A).blockRemainAfter := hramono hrb
  rw [consumeMeta_eq_of_unfinished k e A hw hA]
  rcases hfin : (bodyStep (bodyStep e.remain e.blockRemain A).remainAfter
      (bodyStep e.remain e.blockRemain A).blockRemainAfter B).finished with _ | _
  · have hBlen : B.length < (bodyStep e.remain e.blockRemain A).blockRemainAfter := by
      by_contra hcon
      rw [(bodyStep_finished_iff _ _ B hrb1).mpr (by omega)] at hfin
      cases hfin
    have hABlen : (A ++ B).length < e.blockRemain := by
      by_contra hcon
      have hfin2 := (bodyStep_finished_iff e.remain e.blockRemain (A ++ B) hrb).mpr (by omega)
      rw [hsF] at hfin2
      rw [hfin] at hfin2
      cases hfin2
    rw [consumeMeta_eq_of_unfinished _ _ (A ++ B) hw hABlen,
      consumeMeta_eq_of_unfinished _ _ B (by rfl) hBlen]
    obtain ⟨hra, hbra⟩ := hsRest (by rw [hsF]; exact hfin)
    simp only [Prod.mk.injEq]
    refine ⟨?_, trivial⟩
    rw [Core.mk.injEq]
    refine ⟨rfl, ?_, ?_, rfl, rfl, rfl, rfl, rfl⟩
    · rw [Option.some.injEq, WEntry.mk.injEq]
      exact ⟨rfl, hra, hbra, rfl, rfl⟩
    · rw [hsD, List.append_assoc]
  · have hBlen : (bodyStep e.remain e.blockRemain A).blockRemainAfter ≤ B.length :=
      (bodyStep_finished_iff _ _ B hrb1).mp hfin
    have hABlen : e.blockRemain ≤ (A ++ B).length := by
      rw [hbrA] at hBlen
      simp only [List.length_append]
      omega
    rw [consumeMeta_eq_of_finished _ _ (A ++ B) hw hrb hABlen,
      consumeMeta_eq_of_finished _ _ B (by rfl) hrb1 hBlen]
    have hR : ({ k with
        metaAcc := k.metaAcc ++ (bodyStep e.remain e.blockRemain (A ++ B)).dataOut,
        state := PState.begin, wentry := none,
        sigs := k.sigs ++
          [.metaText (k.metaAcc ++ (bodyStep e.remain e.blockRemain (A ++ B)).dataOut)] } : Core) =
        { k with
            metaAcc := (k.metaAcc ++ (bodyStep e.remain e.blockRemain A).dataOut) ++
              (bodyStep (bodyStep e.remain e.blockRemain A).remainAfter
                (bodyStep e.remain e.blockRemain A).blockRemainAfter B).dataOut,
            state := PState.begin, wentry := none,
            sigs := k.sigs ++
              [.metaText ((k.metaAcc ++ (bodyStep e.remain e.blockRemain A).dataOut) ++
                (bodyStep (bodyStep e.remain e.blockRemain A).remainAfter
                  (bodyStep e.remain e.blockRemain A).blockRemainAfter B).dataOut)] } := by
      rw [Core.mk.injEq]
      refine ⟨rfl, rfl, ?_, rfl, rfl, rfl, ?_, rfl⟩
      · rw [hsD, List.append_assoc]
      · rw [hsD, List.append_assoc]
    rw [hR, hsLeft]

theorem consumeIgnoreBody_eq_of_unfinished (k : Core) (e : WEntry) (c : Bytes)
    (hw : k.wentry = some e) (hc : c.length < e.blockRemain) :
    consumeIgnoreBody k c =
      ({ k with wentry := some { e with blockRemain := e.blockRemain - c.length } }, none) := by
  simp only [consumeIgnoreBody, hw]
  rw [if_neg (by omega)]

theorem consumeIgnoreBody_eq_of_finished (k : Core) (e : WEntry) (c : Bytes)
    (hw : k.wentry = some e) (hc : e.blockRemain ≤ c.length) :
    consumeIgnoreBody k c = ({ k with state := .begin }, some (c.drop e.blockRemain)) := by
  simp only [consumeIgnoreBody, hw]
  rw [if_pos hc]

theorem metaDispatch_state (k : Core) (tk : Nat) :
    (metaDispatch k tk).state = k.state ∨ (metaDispatch k tk).state = .crashed .unknownMeta := by
  unfold metaDispatch
  split_ifs <;> first | exact Or.inl rfl | exact Or.inr rfl

theorem metaDispatch_aligned (k : Core) (tk : Nat) (h : k.state = .begin) :
    alignedCore (metaDispatch k tk) ∧ stateW (metaDispatch k tk).state = 0 := by
  rcases metaDispatch_state k tk with h1 | h1
  · exact ⟨alignedCore_begin _ (h1.trans h), by rw [h1, h]; rfl⟩
  · exact ⟨alignedCore_crashed _ _ h1, by rw [h1]; rfl⟩


theorem alignedCore_ignore_mk (k : Core) (e : WEntry) (hst : k.state = .ignore)
    (hw : k.wentry = some e) (hd : 512 ∣ e.blockRemain) : alignedCore k := by
  constructor
  · intro hc
    rcases hc with hc | hc <;> rw [hst] at hc <;> cases hc
  · intro _
    exact ⟨e, hw, hd⟩

/-- On 512-aligned input from an aligned core, the consume loop leaves no
remainder to buffer and preserves the alignment invariant. -/
theorem loopP_aligned_go (flt : EntryInfo → Bool) :
    ∀ (n : Nat) (k : Core) (c : Bytes), 2 * c.length + stateW k.state ≤ n →
      alignedCore k → 512 ∣ c.length →
      (loopP flt k c).2 = [] ∧ alignedCore (loopP flt k c).1 := by
  intro n
  induction n with
  | zero =>
    intro k c hn hk hc
    have hc0 : c = [] := List.eq_nil_of_length_eq_zero (by omega)
    subst hc0
    rw [loopP_nil]
    exact ⟨rfl, hk⟩
  | succ n ih =>
    intro k c hn hk hc
    by_cases hlen : c.length < 512
    · have hc0 : c = [] := List.eq_nil_of_length_eq_zero (by omega)
      subst hc0
      rw [loopP_nil]
      exact ⟨rfl, hk⟩
    · match hst : k.state with
      | .crashed t =>
        rw [loopP_crashed flt k c t hst hlen]
        exact ⟨rfl, hk⟩
      | .begin =>
        rw [loopP_begin flt k c hst hlen]
        refine ih _ _ ?_ (consumeHeader_aligned flt k _ hst) ?_
        · have h1 := stateW_le (consumeHeader flt k (c.take 512)).state
          have h0 : stateW k.state = 0 := by rw [hst]; rfl
          simp only [List.length_drop]
          omega
        · simp only [List.length_drop]
          omega
      | .body =>
        obtain ⟨e, hw, hdvd, hrb⟩ := hk.1 (Or.inl hst)
        have h1 : stateW k.state = 1 := by rw [hst]; rfl
        by_cases hfin : e.blockRemain ≤ c.length
        · have hCE := consumeEntryBody_eq_of_finished k e c hw hrb hfin
          simp only [bodyStep_eq_of_finished e.remain e.blockRemain c hrb hfin] at hCE
          rw [loopP_body_some flt k c _ _ hst hlen hCE]
          refine ih _ _ ?_ (alignedCore_begin _ rfl) ?_
          · show 2 * (c.drop e.blockRemain).length + stateW PState.begin ≤ n
            simp only [List.length_drop, stateW]
            simp only [show (PState.begin = PState.body ∨ PState.begin = PState.meta ∨
              PState.begin = PState.ignore) = False from by simp, if_false]
            omega
          · simp only [List.length_drop]
            omega
        · push_neg at hfin
          have hCE := consumeEntryBody_eq_of_unfinished k e c hw hfin
          rw [loopP_body_none flt k c _ hst hlen hCE]
          obtain ⟨_, hbrA, _, hramono⟩ := bodyStep_unfinished e.remain e.blockRemain c hfin
          refine ⟨rfl, fun _ => ⟨_, rfl, ?_, hramono hrb⟩, fun _ => ⟨_, rfl, ?_⟩⟩
          · show (512:Nat) ∣ (bodyStep e.remain e.blockRemain c).blockRemainAfter
            rw [hbrA]
            omega
          · show (512:Nat) ∣ (bodyStep e.remain e.blockRemain c).blockRemainAfter
            rw [hbrA]
            omega
      | .meta =>
        obtain ⟨e, hw, hdvd, hrb⟩ := hk.1 (Or.inr hst)
        have h1 : stateW k.state = 1 := by rw [hst]; rfl
        by_cases hfin : e.blockRemain ≤ c.length
        · have hCM := consumeMeta_eq_of_finished k e c hw hrb hfin
          simp only [bodyStep_eq_of_finished e.remain e.blockRemain c hrb hfin] at hCM
          obtain ⟨hal, hsw⟩ := metaDispatch_aligned
            { k with
                metaAcc := k.metaAcc ++ c.take e.remain, state := .begin, wentry := none,
                sigs := k.sigs ++ [.metaText (k.metaAcc ++ c.take e.remain)] }
            e.info.typeKey rfl
          rw [loopP_meta_some flt k c _ _ hst hlen hCM]
          refine ih _ _ ?_ hal ?_
          · rw [hsw]
            simp only [List.length_drop]
            omega
          · simp only [List.length_drop]
            omega
        · push_neg at hfin
          have hCM := consumeMeta_eq_of_unfinished k e c hw hfin
          rw [loopP_meta_none flt k c _ hst hlen hCM]
          obtain ⟨_, hbrA, _, hramono⟩ := bodyStep_unfinished e.remain e.blockRemain c hfin
          refine ⟨rfl, fun _ => ⟨_, rfl, ?_, hramono hrb⟩, fun _ => ⟨_, rfl, ?_⟩⟩
          · show (512:Nat) ∣ (bodyStep e.remain e.blockRemain c).blockRemainAfter
            rw [hbrA]
            omega
          · show (512:Nat) ∣ (bodyStep e.remain e.blockRemain c).blockRemainAfter
            rw [hbrA]
            omega
      | .ignore =>
        obtain ⟨e, hw, hdvd⟩ := hk.2 hst
        have h1 : stateW k.state = 1 := by rw [hst]; rfl
        by_cases hfin : e.blockRemain ≤ c.length
        · have hCI := consumeIgnoreBody_eq_of_finished k e c hw hfin
          rw [loopP_ignore_some flt k c _ _ hst hlen hCI]
          refine ih _ _ ?_ (alignedCore_begin _ rfl) ?_
          · show 2 * (c.drop e.blockRemain).length + stateW PState.begin ≤ n
            simp only [List.length_drop, stateW]
            simp only [show (PState.begin = PState.body ∨ PState.begin = PState.meta ∨
              PState.begin = PState.ignore) = False from by simp, if_false]
            omega
          · simp only [List.length_drop]
            omega
        · push_neg at hfin
          have hCI := consumeIgnoreBody_eq_of_unfinished k e c hw hfin
          rw [loopP_ignore_none flt k c _ hst hlen hCI]
          exact ⟨rfl, alignedCore_ignore_mk _ { e with blockRemain := e.blockRemain - c.length }
            hst rfl (show (512:Nat) ∣ e.blockRemain - c.length by omega)⟩

theorem loopP_aligned (flt : EntryInfo → Bool) (k : Core) (c : Bytes)
    (hk : alignedCore k) (hc : 512 ∣ c.length) :
    (loopP flt k c).2 = [] ∧ alignedCore (loopP flt k c).1 :=
  loopP_aligned_go flt (2 * c.length + stateW k.state) k c le_rfl hk hc


theorem stateW_begin : stateW PState.begin = 0 := rfl

/-- Splitting a 512-aligned chunk anywhere on the 512-byte grid is
invisible to the loop, up to the stale ignored write-entry. -/
theorem loopP_split_go (flt : EntryInfo → Bool) :
    ∀ (n : Nat) (k : Core) (A B : Bytes), 2 * A.length + stateW k.state ≤ n →
      alignedCore k → 512 ∣ A.length → 512 ∣ B.length →
      obsEq (loopP flt k (A ++ B)).1 (loopP flt (loopP flt k A).1 B).1 := by
  intro n
  induction n with
  | zero =>
    intro k A B hn hk hA hB
    have hA0 : A = [] := List.eq_nil_of_length_eq_zero (by omega)
    subst hA0
    rw [List.nil_append, loopP_nil]
    exact obsEq_refl _
  | succ n ih =>
    intro k A B hn hk hA hB
    by_cases hA0 : A = []
    · subst hA0
      rw [List.nil_append, loopP_nil]
      exact obsEq_refl _
    by_cases hB0 : B = []
    · subst hB0
      rw [List.append_nil, loopP_nil]
      exact obsEq_refl _
    have hAlen : 512 ≤ A.length := by
      have h0 : A.length ≠ 0 := fun h => hA0 (List.eq_nil_of_length_eq_zero h)
      omega
    have hBlen : 512 ≤ B.length := by
      have h0 : B.length ≠ 0 := fun h => hB0 (List.eq_nil_of_length_eq_zero h)
      omega
    have hcA : ¬A.length < 512 := by omega
    have hcB : ¬B.length < 512 := by omega
    have hcAB : ¬(A ++ B).length < 512 := by simp only [List.length_append]; omega
    match hst : k.state with
    | .crashed t =>
      rw [loopP_crashed flt k (A ++ B) t hst hcAB, loopP_crashed flt k A t hst hcA]
      show obsEq k (loopP flt k B).1
      rw [loopP_crashed flt k B t hst hcB]
      exact obsEq_refl k
    | .begin =>
      have h0 : stateW k.state = 0 := by rw [hst]; rfl
      have htake : (A ++ B).take 512 = A.take 512 := by
        rw [List.take_append_eq_append_take, show 512 - A.length = 0 by omega]
        simp
      have hdrop : (A ++ B).drop 512 = A.drop 512 ++ B := by
        rw [List.drop_append_eq_append_drop, show 512 - A.length = 0 by omega]
        simp
      rw [loopP_begin flt k (A ++ B) hst hcAB, loopP_begin flt k A hst hcA, htake, hdrop]
      exact ih (consumeHeader flt k (A.take 512)) (A.drop 512) B
        (by have h1 := stateW_le (consumeHeader flt k (A.take 512)).state
            simp only [List.length_drop]
            omega)
        (consumeHeader_aligned flt k (A.take 512) hst)
        (by simp only [List.length_drop]; omega) hB
    | .body =>
      obtain ⟨e, hw, hdvd, hrb⟩ := hk.1 (Or.inl hst)
      have h1 : stateW k.state = 1 := by rw [hst]; rfl
      by_cases hfin : e.blockRemain ≤ A.length
      · -- the A-part alone completes the block: lockstep
        have hfinAB : e.blockRemain ≤ (A ++ B).length := by
          simp only [List.length_append]; omega
        have hCEAB := consumeEntryBody_eq_of_finished k e (A ++ B) hw hrb hfinAB
        simp only [bodyStep_eq_of_finished e.remain e.blockRemain (A ++ B) hrb hfinAB] at hCEAB
        have hCEA := consumeEntryBody_eq_of_finished k e A hw hrb hfin
        simp only [bodyStep_eq_of_finished e.remain e.blockRemain A hrb hfin] at hCEA
        have htk : (A ++ B).take e.remain = A.take e.remain := by
          rw [List.take_append_eq_append_take, show e.remain - A.length = 0 by omega]
          simp
        have hdr : (A ++ B).drop e.blockRemain = A.drop e.blockRemain ++ B := by
          rw [List.drop_append_eq_append_drop, show e.blockRemain - A.length = 0 by omega]
          simp
        rw [htk, hdr] at hCEAB
        rcases hMA : consumeEntryBody k A with ⟨K2, roA⟩
        have h2 := hCEA
        rw [hMA] at h2
        injection h2 with hK2 hro
        subst hro
        have hCEAB2 : consumeEntryBody k (A ++ B) = (K2, some (A.drop e.blockRemain ++ B)) := by
          rw [hK2]
          exact hCEAB
        rw [loopP_body_some flt k (A ++ B) K2 _ hst hcAB hCEAB2,
          loopP_body_some flt k A K2 _ hst hcA hMA]
        exact ih K2 (A.drop e.blockRemain) B
          (by have hsw : stateW K2.state = 0 := by rw [hK2]; rfl
              rw [hsw]
              simp only [List.length_drop]
              omega)
          (by rw [hK2]; exact alignedCore_begin _ rfl)
          (by simp only [List.length_drop]; omega) hB
      · -- the block continues past A: the two runs consume in lockstep
        push_neg at hfin
        have hCE := consumeEntryBody_eq_of_unfinished k e A hw hfin
        rcases hMA : consumeEntryBody k A with ⟨K1, roA⟩
        have h2 := hCE
        rw [hMA] at h2
        injection h2 with hK1 hro
        subst hro
        rw [loopP_body_none flt k A K1 hst hcA hMA]
        show obsEq (loopP flt k (A ++ B)).1 (loopP flt K1 B).1
        have hK1st : K1.state = PState.body := by rw [hK1]; exact hst
        have hcomp2 : consumeEntryBody k (A ++ B) = consumeEntryBody K1 B := by
          rw [consumeEntryBody_comp k e A B hw hrb hfin, hMA]
        rcases hB2 : consumeEntryBody K1 B with ⟨K2, _ | r⟩
        · rw [loopP_body_none flt k (A ++ B) K2 hst hcAB (hcomp2.trans hB2),
            loopP_body_none flt K1 B K2 hK1st hcB hB2]
          exact obsEq_refl _
        · rw [loopP_body_some flt k (A ++ B) K2 r hst hcAB (hcomp2.trans hB2),
            loopP_body_some flt K1 B K2 r hK1st hcB hB2]
          exact obsEq_refl _
    | .meta =>
      obtain ⟨e, hw, hdvd, hrb⟩ := hk.1 (Or.inr hst)
      have h1 : stateW k.state = 1 := by rw [hst]; rfl
      by_cases hfin : e.blockRemain ≤ A.length
      · -- lockstep: the meta block completes within A
        have hfinAB : e.blockRemain ≤ (A ++ B).length := by
          simp only [List.length_append]; omega
        have hCMAB := consumeMeta_eq_of_finished k e (A ++ B) hw hrb hfinAB
        simp only [bodyStep_eq_of_finished e.remain e.blockRemain (A ++ B) hrb hfinAB] at hCMAB
        have hCMA := consumeMeta_eq_of_finished k e A hw hrb hfin
        simp only [bodyStep_eq_of_finished e.remain e.blockRemain A hrb hfin] at hCMA
        have htk : (A ++ B).take e.remain = A.take e.remain := by
          rw [List.take_append_eq_append_take, show e.remain - A.length = 0 by omega]
          simp
        have hdr : (A ++ B).drop e.blockRemain = A.drop e.blockRemain ++ B := by
          rw [List.drop_append_eq_append_drop, show e.blockRemain - A.length = 0 by omega]
          simp
        rw [htk, hdr] at hCMAB
        rcases hMA : consumeMeta k A with ⟨KM, roA⟩
        have h2 := hCMA
        rw [hMA] at h2
        injection h2 with hKM hro
        subst hro
        have hCMAB2 : consumeMeta k (A ++ B) = (KM, some (A.drop e.blockRemain ++ B)) := by
          rw [hKM]
          exact hCMAB
        rw [loopP_meta_some flt k (A ++ B) KM _ hst hcAB hCMAB2,
          loopP_meta_some flt k A KM _ hst hcA hMA]
        exact ih KM (A.drop e.blockRemain) B
          (by have hsw : stateW KM.state = 0 := by
                rw [hKM]
                exact (metaDispatch_aligned _ _ rfl).2
              rw [hsw]
              simp only [List.length_drop]
              omega)
          (by rw [hKM]; exact (metaDispatch_aligned _ _ rfl).1)
          (by simp only [List.length_drop]; omega) hB
      · -- the meta block continues past A
        push_neg at hfin
        have hCM := consumeMeta_eq_of_unfinished k e A hw hfin
        rcases hMA : consumeMeta k A with ⟨K1, roA⟩
        have h2 := hCM
        rw [hMA] at h2
        injection h2 with hK1 hro
        subst hro
        rw [loopP_meta_none flt k A K1 hst hcA hMA]
        show obsEq (loopP flt k (A ++ B)).1 (loopP flt K1 B).1
        have hK1st : K1.state = PState.meta := by rw [hK1]; exact hst
        have hcomp2 : consumeMeta k (A ++ B) = consumeMeta K1 B := by
          rw [consumeMeta_comp k e A B hw hrb hfin, hMA]
        rcases hB2 : consumeMeta K1 B with ⟨K2, _ | r⟩
        · rw [loopP_meta_none flt k (A ++ B) K2 hst hcAB (hcomp2.trans hB2),
            loopP_meta_none flt K1 B K2 hK1st hcB hB2]
          exact obsEq_refl _
        · rw [loopP_meta_some flt k (A ++ B) K2 r hst hcAB (hcomp2.trans hB2),
            loopP_meta_some flt K1 B K2 r hK1st hcB hB2]
          exact obsEq_refl _
    | .ignore =>
      obtain ⟨e, hw, hdvd⟩ := hk.2 hst
      have h1 : stateW k.state = 1 := by rw [hst]; rfl
      by_cases hfin : e.blockRemain ≤ A.length
      · -- the ignored block completes within A
        have hfinAB : e.blockRemain ≤ (A ++ B).length := by
          simp only [List.length_append]; omega
        have hCIAB := consumeIgnoreBody_eq_of_finished k e (A ++ B) hw hfinAB
        have hCIA := consumeIgnoreBody_eq_of_finished k e A hw hfin
        have hdr : (A ++ B).drop e.blockRemain = A.drop e.blockRemain ++ B := by
          rw [List.drop_append_eq_append_drop, show e.blockRemain - A.length = 0 by omega]
          simp
        rw [hdr] at hCIAB
        rw [loopP_ignore_some flt k (A ++ B) _ _ hst hcAB hCIAB,
          loopP_ignore_some flt k A _ _ hst hcA hCIA]
        exact ih { k with state := .begin } (A.drop e.blockRemain) B
          (by show 2 * (A.drop e.blockRemain).length + stateW PState.begin ≤ n
              rw [stateW_begin]
              simp only [List.length_drop]
              omega)
          (alignedCore_begin _ rfl)
          (by simp only [List.length_drop]; omega) hB
      · -- the ignored block continues past A
        push_neg at hfin
        have hCIA := consumeIgnoreBody_eq_of_unfinished k e A hw hfin
        rcases hMA : consumeIgnoreBody k A with ⟨K1, roA⟩
        have h2 := hCIA
        rw [hMA] at h2
        injection h2 with hK1 hro
        subst hro
        rw [loopP_ignore_none flt k A K1 hst hcA hMA]
        show obsEq (loopP flt k (A ++ B)).1 (loopP flt K1 B).1
        have hK1st : K1.state = PState.ignore := by rw [hK1]; exact hst
        have hK1w : K1.wentry = some { e with blockRemain := e.blockRemain - A.length } := by
          rw [hK1]
        by_cases hfin2 : e.blockRemain ≤ A.length + B.length
        · -- the combined chunk finishes the ignored block
          have hfinAB : e.blockRemain ≤ (A ++ B).length := by
            simp only [List.length_append]; omega
          have hCIAB := consumeIgnoreBody_eq_of_finished k e (A ++ B) hw hfinAB
          have hfinB : ({ e with blockRemain := e.blockRemain - A.length } : WEntry).blockRemain ≤
              B.length := by
            show e.blockRemain - A.length ≤ B.length
            omega
          have hCIB := consumeIgnoreBody_eq_of_finished K1 _ B hK1w hfinB
          have hdr2 : (A ++ B).drop e.blockRemain = B.drop (e.blockRemain - A.length) := by
            rw [List.drop_append_eq_append_drop,
              List.drop_eq_nil_of_le (by omega : A.length ≤ e.blockRemain)]
            simp
          rw [hdr2] at hCIAB
          rw [loopP_ignore_some flt k (A ++ B) _ _ hst hcAB hCIAB,
            loopP_ignore_some flt K1 B _ _ hK1st hcB hCIB]
          refine (loopP_cong flt _ _ _ ?_).1
          rw [hK1]
          exact ⟨rfl, rfl, rfl, rfl, rfl, rfl, rfl, fun hcon => absurd rfl hcon⟩
        · -- the combined chunk does not finish the ignored block either
          push_neg at hfin2
          have hfinAB : (A ++ B).length < e.blockRemain := by
            simp only [List.length_append]; omega
          have hCIAB := consumeIgnoreBody_eq_of_unfinished k e (A ++ B) hw hfinAB
          have hfinB : B.length <
              ({ e with blockRemain := e.blockRemain - A.length } : WEntry).blockRemain := by
            show B.length < e.blockRemain - A.length
            omega
          have hCIB := consumeIgnoreBody_eq_of_unfinished K1 _ B hK1w hfinB
          rw [loopP_ignore_none flt k (A ++ B) _ hst hcAB hCIAB,
            loopP_ignore_none flt K1 B _ hK1st hcB hCIB]
          rw [hK1]
          refine ⟨rfl, rfl, rfl, rfl, rfl, rfl, rfl, fun _ => ?_⟩
          rw [Option.some.injEq, WEntry.mk.injEq]
          refine ⟨rfl, rfl, ?_, rfl, rfl⟩
          show e.blockRemain - (A ++ B).length =
            ({ e with blockRemain := e.blockRemain - A.length } : WEntry).blockRemain - B.length
          simp only [List.length_append]
          show e.blockRemain - (A.length + B.length) = e.blockRemain - A.length - B.length
          omega

theorem loopP_split (flt : EntryInfo → Bool) (k : Core) (A B : Bytes)
    (hk : alignedCore k) (hA : 512 ∣ A.length) (hB : 512 ∣ B.length) :
    obsEq (loopP flt k (A ++ B)).1 (loopP flt (loopP flt k A).1 B).1 :=
  loopP_split_go flt (2 * A.length + stateW k.state) k A B le_rfl hk hA hB


/-! ## Lifting to `write`/`runWrites` -/

theorem isCrashed_iff (k : Core) : isCrashed k = true ↔ ∃ t, k.state = PState.crashed t := by
  unfold isCrashed
  match hx : k.state with
  | .crashed t => exact ⟨fun _ => ⟨t, rfl⟩, fun _ => rfl⟩
  | .begin => exact ⟨fun h => (nomatch h), fun ⟨t, ht⟩ => (nomatch ht)⟩
  | .body => exact ⟨fun h => (nomatch h), fun ⟨t, ht⟩ => (nomatch ht)⟩
  | .meta => exact ⟨fun h => (nomatch h), fun ⟨t, ht⟩ => (nomatch ht)⟩
  | .ignore => exact ⟨fun h => (nomatch h), fun ⟨t, ht⟩ => (nomatch ht)⟩

theorem consumeChunkTop_aligned (flt : EntryInfo → Bool) (p : Parser) (c : Bytes)
    (hbuf : p.buffer = []) (hend : p.ended = false) (hal : alignedCore p.core)
    (hc : 512 ∣ c.length) :
    consumeChunkTop flt p (some c) =
      { p with core := (loopP flt p.core c).1, buffer := [] } := by
  obtain ⟨hl, _⟩ := loopP_aligned flt p.core c hal hc
  simp only [consumeChunkTop, hbuf, List.nil_append, hl, ne_eq, not_true, Bool.false_eq_true,
    if_false, hend, eq_self_iff_true]
  split <;> rfl

/-- Once the gzip decision has been made (`unzip = some false`) and the
buffer is empty, a 512-aligned write just advances the core through the
loop: the remainder is empty, so the buffer stays empty.  This holds for
crashed cores too, which ignore their input. -/
theorem write_aligned (flt : EntryInfo → Bool) (p : Parser) (c : Bytes)
    (hz : p.unzip = some false) (hbuf : p.buffer = []) (hend : p.ended = false)
    (hal : alignedCore p.core) (hc : 512 ∣ c.length) :
    write flt p (some c) = { p with core := (loopP flt p.core c).1, buffer := [] } ∧
    alignedCore (loopP flt p.core c).1 := by
  obtain ⟨hl, hal2⟩ := loopP_aligned flt p.core c hal hc
  refine ⟨?_, hal2⟩
  by_cases hcr : isCrashed p.core = true
  · have h1 : (loopP flt p.core c).1 = p.core := by
      obtain ⟨t, hts⟩ := (isCrashed_iff p.core).mp hcr
      by_cases hlen : c.length < 512
      · rw [loopP_small flt p.core c hlen]
      · rw [loopP_crashed flt p.core c t hts hlen]
    simp only [write, hcr, if_true]
    rw [h1, ← hbuf]
  · have hcr' : isCrashed p.core = false := by
      revert hcr; cases isCrashed p.core <;> simp
    simp only [write, hcr', Bool.false_eq_true, if_false, hz]
    rw [← hz]
    exact consumeChunkTop_aligned flt p c hbuf hend hal hc

theorem runWrites_core (flt : EntryInfo → Bool) :
    ∀ (cs : List Bytes) (p : Parser), p.unzip = some false → p.buffer = [] →
      p.ended = false → alignedCore p.core → (∀ c ∈ cs, 512 ∣ c.length) →
      (runWrites flt p cs).core = cs.foldl (loopCore flt) p.core := by
  intro cs
  induction cs with
  | nil => intro p _ _ _ _ _; rfl
  | cons c cs ihc =>
    intro p hz hbuf hend hal hmem
    obtain ⟨hw, hal2⟩ := write_aligned flt p c hz hbuf hend hal (hmem c (by simp))
    simp only [runWrites, List.foldl_cons]
    rw [hw]
    exact ihc { p with core := (loopP flt p.core c).1, buffer := [] } hz rfl hend hal2
      (fun x hx => hmem x (List.mem_cons_of_mem c hx))

theorem flattenLen : ∀ (cs : List Bytes), (∀ c ∈ cs, 512 ∣ c.length) →
    512 ∣ cs.flatten.length := by
  intro cs
  induction cs with
  | nil => intro _; simp
  | cons c cs ihc =>
    intro h
    show 512 ∣ (c ++ cs.flatten).length
    simp only [List.length_append]
    exact Nat.dvd_add (h c (by simp)) (ihc (fun x hx => h x (List.mem_cons_of_mem c hx)))

/-- Folding the loop over 512-aligned chunks is observationally the same
as one pass over their concatenation. -/
theorem loopCore_join (flt : EntryInfo → Bool) :
    ∀ (cs : List Bytes) (k : Core), alignedCore k → (∀ c ∈ cs, 512 ∣ c.length) →
      obsEq (loopCore flt k cs.flatten) (cs.foldl (loopCore flt) k) := by
  intro cs
  induction cs with
  | nil => intro k _ _; exact obsEq_refl k
  | cons c cs ihc =>
    intro k hk hmem
    have hcd := hmem c (by simp)
    have hjd : 512 ∣ (List.flatten cs).length :=
      flattenLen cs (fun x hx => hmem x (List.mem_cons_of_mem c hx))
    have h1 := loopP_split flt k c cs.flatten hk hcd hjd
    have h2 := ihc (loopCore flt k c) (loopP_aligned flt k c hk hcd).2
      (fun x hx => hmem x (List.mem_cons_of_mem c hx))
    exact obsEq_trans _ _ _ h1 h2

/-- The first write of a non-gzip stream of at least two bytes settles
the gzip question negatively and consumes the chunk directly. -/
theorem write_first (flt : EntryInfo → Bool) (m : Nat) (c : Bytes)
    (h2 : ¬c.length < 2) (hgz : ¬c.take 2 = [31, 139]) (hc : 512 ∣ c.length) :
    write flt (initParser m) (some c) =
      { initParser m with
          unzip := some false,
          core := (loopP flt (initParser m).core c).1 } := by
  have hcc := consumeChunkTop_aligned flt
    { initParser m with buffer := [], unzip := some false } c rfl rfl
    (alignedCore_begin _ rfl) hc
  simp only [write, show isCrashed (initParser m).core = false from rfl,
    Bool.false_eq_true, if_false,
    show (initParser m).unzip = (none : Option Bool) from rfl,
    show (initParser m).buffer = ([] : Bytes) from rfl, List.nil_append]
  rw [if_neg h2, if_neg hgz, hcc]


/-- Claim C1 (amended): chunking invariance holds on the 512-byte grid.
For a non-gzip byte stream (first two bytes not `0x1f 0x8b`) split into
nonempty chunks whose lengths are multiples of 512, feeding the chunks
through successive `write` calls produces exactly the same entry records
(same per-entry body bytes and end marks) and the same emitted signals as
feeding the concatenation in a single `write`.  The general claim, for
arbitrary partitions, is refuted by `Tar.c1_counterexample`: a split off
the 512-byte grid can strand up to 511 trailing bytes in the buffer. -/
theorem c1_aligned_chunking (flt : EntryInfo → Bool) (m : Nat) (cs : List Bytes)
    (hne : cs ≠ []) (hch : ∀ c ∈ cs, c ≠ [] ∧ 512 ∣ c.length)
    (hgz : ¬cs.flatten.take 2 = [31, 139]) :
    (runWrites flt (initParser m) cs).core.entries =
      (runWrites flt (initParser m) [cs.flatten]).core.entries ∧
    (runWrites flt (initParser m) cs).core.sigs =
      (runWrites flt (initParser m) [cs.flatten]).core.sigs := by
  match cs, hne, hch, hgz with
  | c :: rest, _, hch, hgz =>
    obtain ⟨hc1ne, hc1dvd⟩ := hch c (by simp)
    have hc1len : 512 ≤ c.length := by
      have h0 : c.length ≠ 0 := fun h => hc1ne (List.eq_nil_of_length_eq_zero h)
      omega
    have hdall : ∀ x ∈ c :: rest, 512 ∣ x.length := fun x hx => (hch x hx).2
    have hjd : 512 ∣ ((c :: rest).flatten).length := flattenLen _ hdall
    have hjlen2 : ¬((c :: rest).flatten).length < 2 := by
      show ¬(c ++ rest.flatten).length < 2
      simp only [List.length_append]
      omega
    have hclen2 : ¬c.length < 2 := by omega
    have hctk : c.take 2 = ((c :: rest).flatten).take 2 := by
      show c.take 2 = (c ++ rest.flatten).take 2
      rw [List.take_append_eq_append_take, show 2 - c.length = 0 by omega]
      simp
    have hcgz : ¬c.take 2 = [31, 139] := by rw [hctk]; exact hgz
    have hsingle : (runWrites flt (initParser m) [(c :: rest).flatten]).core =
        loopCore flt (initParser m).core ((c :: rest).flatten) := by
      show (write flt (initParser m) (some ((c :: rest).flatten))).core = _
      rw [write_first flt m _ hjlen2 hgz hjd]
      rfl
    have hchunk : (runWrites flt (initParser m) (c :: rest)).core =
        (c :: rest).foldl (loopCore flt) (initParser m).core := by
      show (runWrites flt (write flt (initParser m) (some c)) rest).core = _
      rw [write_first flt m c hclen2 hcgz hc1dvd]
      exact runWrites_core flt rest _ rfl rfl rfl
        (loopP_aligned flt (initParser m).core c (alignedCore_begin _ rfl) hc1dvd).2
        (fun x hx => hdall x (List.mem_cons_of_mem c hx))
    have hobs := loopCore_join flt (c :: rest) (initParser m).core
      (alignedCore_begin _ rfl) hdall
    rw [hchunk, hsingle]
    exact ⟨(obsEq_symm _ _ hobs).2.2.2.2.1, (obsEq_symm _ _ hobs).2.2.2.2.2.1⟩

/-- Witness for the amended C1: the 1536-byte archive `exS` split on the
512-byte grid (512 + 1024) produces the same entries and signals as the
single write. -/
theorem c1_aligned_chunking_witness :
    (runWrites fltT (initParser maxMetaEntrySize) [exS.take 512, exS.drop 512]).core.entries =
      (runWrites fltT (initParser maxMetaEntrySize)
        [[exS.take 512, exS.drop 512].flatten]).core.entries ∧
    (runWrites fltT (initParser maxMetaEntrySize) [exS.take 512, exS.drop 512]).core.sigs =
      (runWrites fltT (initParser maxMetaEntrySize)
        [[exS.take 512, exS.drop 512].flatten]).core.sigs :=
  c1_aligned_chunking fltT maxMetaEntrySize [exS.take 512, exS.drop 512]
    (by decide) (by decide) (by decide)

end Tar
